import Mathlib

/-!
Verification of the Rush-Hour style board model and BFS solver
(`generator/board.py`, `generator/solver.py`).

The Python code is shallowly embedded: vehicles and boards are Lean
structures; the Python `dict` of vehicles becomes an insertion-ordered
association list; the Python `while queue:` loop of the solver becomes a
fuel-indexed recursion whose fuel-exhaustion result coincides with the
queue-exhaustion result `(false, 0, [])`.
-/

namespace Draivers

/-- Embeds the Python class `Vehicle` (`board.py`).  `orientation` is the
literal string `"horizontal"` or `"vertical"`; all code paths only ever
test `orientation == "horizontal"`, which the embedding mirrors. -/
structure Vehicle where
  id : String
  orientation : String
  length : Nat
  row : Int
  col : Int
deriving DecidableEq, Repr

/-- Embeds `Vehicle.occupies`: the cells `(row, col+i)` (horizontal) or
`(row+i, col)` (vertical) for `i < length`. -/
def Vehicle.occupies (v : Vehicle) : List (Int × Int) :=
  (List.range v.length).map (fun i : Nat =>
    if v.orientation = "horizontal" then (v.row, v.col + (i : Int))
    else (v.row + (i : Int), v.col))

/-- The in-place update performed by `Board.move` on the moved vehicle:
`col += steps` if horizontal, else `row += steps`. -/
def Vehicle.moved (v : Vehicle) (steps : Int) : Vehicle :=
  if v.orientation = "horizontal" then { v with col := v.col + steps }
  else { v with row := v.row + steps }

/-- Embeds the Python class `Board`: grid dimension `size` and the
insertion-ordered vehicle dictionary `vehicles` (id -> Vehicle). -/
structure Board where
  size : Nat
  vehicles : List Vehicle
deriving DecidableEq, Repr

/-- Python dict assignment `d[v.id] = v` on an insertion-ordered
association list: replace in place if the key exists, else append. -/
def dictInsert (vs : List Vehicle) (v : Vehicle) : List Vehicle :=
  if vs.any (fun w => w.id = v.id) then vs.map (fun w => if w.id = v.id then v else w)
  else vs ++ [v]

/-- The overlap test of `Board.add_vehicle`: some existing vehicle's
occupied cells intersect the new cells. -/
def overlapsAny (cells : List (Int × Int)) (vs : List Vehicle) : Bool :=
  vs.any (fun w => cells.any (fun c => decide (c ∈ w.occupies)))

/-- The bounds test of `Board.add_vehicle`: some cell has
`r < 0 or r >= size or c < 0 or c >= size`. -/
def cellsOutOfBounds (size : Nat) (cells : List (Int × Int)) : Bool :=
  cells.any (fun c =>
    decide (c.1 < 0) || decide ((size : Int) ≤ c.1) ||
    decide (c.2 < 0) || decide ((size : Int) ≤ c.2))

/-- Embeds `Board.add_vehicle`: returns `False` on overlap with an existing
vehicle, then `False` on an out-of-bounds cell, otherwise inserts the
vehicle into the dictionary and returns `True`.  The Python method
mutates `self`; the embedding returns the flag and the resulting board. -/
def Board.add_vehicle (b : Board) (v : Vehicle) : Bool × Board :=
  if overlapsAny v.occupies b.vehicles then (false, b)
  else if cellsOutOfBounds b.size v.occupies then (false, b)
  else (true, { b with vehicles := dictInsert b.vehicles v })

/-- Embeds `Board.get_state_hash`: the `(id, row, col)` triples listed in
sorted order of vehicle id (`sorted(self.vehicles.keys())`). -/
def Board.get_state_hash (b : Board) : List (String × Int × Int) :=
  List.insertionSort (fun x y => x.1 ≤ y.1) (b.vehicles.map (fun v => (v.id, v.row, v.col)))

/-- Python `dict` lookup `self.vehicles['target']` modelled by the first
(and, with unique ids, only) vehicle carrying the id. -/
def Board.findVehicle (b : Board) (i : String) : Option Vehicle :=
  b.vehicles.find? (fun v => v.id = i)

/-- Embeds `Board.is_solved`: `False` when no vehicle has id `"target"`,
otherwise `target.col + target.length == self.size`. -/
def Board.is_solved (b : Board) : Bool :=
  match b.findVehicle ("target") with
  | none => false
  | some t => decide (t.col + (t.length : Int) = (b.size : Int))

/-- Embeds `Board.get_occupied_cells`: union of all vehicles' occupied cells
(membership in this list is what the code tests). -/
def Board.get_occupied_cells (b : Board) : List (Int × Int) :=
  b.vehicles.flatMap Vehicle.occupies

/-- The blocking test of the forward probe in `get_possible_moves`:
for each `i in range(length)` the code computes the front-edge cell
advanced by `steps` (independently of `i`) and breaks when it is beyond
the right/bottom edge or occupied by a cell not of this vehicle. -/
def fwdBad (b : Board) (occ my : List (Int × Int)) (v : Vehicle) (steps : Nat) : Bool :=
  (List.range v.length).any (fun _ =>
    let rc : Int × Int :=
      if v.orientation = "horizontal" then (v.row, v.col + (v.length : Int) - 1 + (steps : Int))
      else (v.row + (v.length : Int) - 1 + (steps : Int), v.col)
    decide ((b.size : Int) ≤ rc.1) || decide ((b.size : Int) ≤ rc.2) ||
      (decide (rc ∈ occ) && !(decide (rc ∈ my))))

/-- The blocking test of the backward probe in `get_possible_moves`:
the cell `steps` behind the anchor, blocked when negative or occupied
by a cell not of this vehicle. -/
def bwdBad (_b : Board) (occ my : List (Int × Int)) (v : Vehicle) (steps : Nat) : Bool :=
  (List.range v.length).any (fun _ =>
    let rc : Int × Int :=
      if v.orientation = "horizontal" then (v.row, v.col - (steps : Int))
      else (v.row - (steps : Int), v.col)
    decide (rc.1 < 0) || decide (rc.2 < 0) ||
      (decide (rc ∈ occ) && !(decide (rc ∈ my))))

/-- Embeds `Board.get_possible_moves`: per vehicle, probe
`steps in range(1, size)` forward and backward, emitting every step
count before the first blocked one (`takeWhile` is the Python
`break`). -/
def Board.get_possible_moves (b : Board) : List (String × Int) :=
  let occ := b.get_occupied_cells
  b.vehicles.flatMap (fun v =>
    let my := v.occupies
    ((List.range' 1 (b.size - 1)).takeWhile (fun s => !(fwdBad b occ my v s))).map
        (fun s : Nat => (v.id, (s : Int)))
    ++ ((List.range' 1 (b.size - 1)).takeWhile (fun s => !(bwdBad b occ my v s))).map
        (fun s : Nat => (v.id, -(s : Int))))

/-- Embeds `Board.move`: build a new board of the same size, re-adding each
vehicle in order (the moved one advanced along its axis) through
`add_vehicle`, whose boolean result the Python code ignores. -/
def Board.move (b : Board) (v_id : String) (steps : Int) : Board :=
  b.vehicles.foldl (fun nb w =>
    let nw := if w.id = v_id then w.moved steps else w
    (nb.add_vehicle nw).2)
    { size := b.size, vehicles := [] }

/-! ## The solver (`solver.py`) -/

/-- A move as returned by the solver: `(vehicle_id, steps)`. -/
abbrev Move := String × Int

/-- A state hash as produced by `Board.get_state_hash`. -/
abbrev SHash := List (String × Int × Int)

/-- A BFS queue entry `(current_board_obj, moves_count, path_list)`. -/
abbrev QEntry := Board × Nat × List Move

/-- The safety ceiling `MAX_DEPTH = 100` of `solve_board`. -/
def MAX_DEPTH : Nat := 100

/-- The inner `for v_id, steps in possible_moves:` loop of
`solve_board`: walk the move list, skipping children whose hash is
visited, returning `(True, moves+1, path+[move])` at the first solved
child, otherwise enqueueing the child and recording its hash. -/
def expandMoves (cur : Board) (movesN : Nat) (path : List Move) :
    List Move → List QEntry → List SHash →
    Option (Bool × Nat × List Move) × List QEntry × List SHash
  | [], queue, visited => (none, queue, visited)
  | (vid, steps) :: rest, queue, visited =>
    if (cur.move vid steps).get_state_hash ∈ visited then
      expandMoves cur movesN path rest queue visited
    else if (cur.move vid steps).is_solved then
      (some (true, movesN + 1, path ++ [(vid, steps)]), queue, visited)
    else
      expandMoves cur movesN path rest
        (queue ++ [(cur.move vid steps, movesN + 1, path ++ [(vid, steps)])])
        (visited ++ [(cur.move vid steps).get_state_hash])

/-- The `while queue:` loop of `solve_board`, indexed by fuel; running
out of fuel yields the same `(False, 0, [])` as queue exhaustion.
A dequeued node whose depth reached `MAX_DEPTH` is skipped. -/
def bfsLoop : Nat → List QEntry → List SHash → Bool × Nat × List Move
  | _, [], _ => (false, 0, [])
  | 0, _ :: _, _ => (false, 0, [])
  | fuel + 1, (cur, movesN, path) :: rest, visited =>
    if MAX_DEPTH ≤ movesN then bfsLoop fuel rest visited
    else
      match expandMoves cur movesN path cur.get_possible_moves rest visited with
      | (some ans, _, _) => ans
      | (none, q2, vis2) => bfsLoop fuel q2 vis2

/-- Embeds `solve_board`: immediate `(True, 0, [])` when the input is already
solved, otherwise BFS from the input with its hash pre-visited. -/
def solve_board (fuel : Nat) (b : Board) : Bool × Nat × List Move :=
  if b.is_solved then (true, 0, [])
  else bfsLoop fuel [(b, 0, [])] [b.get_state_hash]

/-- Embeds `get_moves_count`: the move count when solvable, `-1` otherwise. -/
def get_moves_count (fuel : Nat) (b : Board) : Int :=
  match solve_board fuel b with
  | (true, moves, _) => (moves : Int)
  | (false, _, _) => -1

/-! ## Specification-side notions (used to state the claims) -/

/-- A cell lies within `[0, size) x [0, size)`. -/
def inBoundsCell (size : Nat) (p : Int × Int) : Prop :=
  0 ≤ p.1 ∧ p.1 < (size : Int) ∧ 0 ≤ p.2 ∧ p.2 < (size : Int)

instance (size : Nat) (p : Int × Int) : Decidable (inBoundsCell size p) := by
  unfold inBoundsCell; infer_instance

/-- The vehicles' occupied-cell sets are pairwise disjoint. -/
def Board.CellsDisjoint (b : Board) : Prop :=
  b.vehicles.Pairwise (fun v w => ∀ p ∈ v.occupies, p ∉ w.occupies)

instance (b : Board) : Decidable b.CellsDisjoint := by
  unfold Board.CellsDisjoint; infer_instance

/-- Every occupied cell of every vehicle lies on the grid. -/
def Board.CellsInBounds (b : Board) : Prop :=
  ∀ v ∈ b.vehicles, ∀ p ∈ v.occupies, inBoundsCell b.size p

instance (b : Board) : Decidable b.CellsInBounds := by
  unfold Board.CellsInBounds; infer_instance

/-- A valid board: disjoint in-bounds vehicles, unique ids, and every
vehicle of positive length (the spec's data-model invariants, with
`length ≥ 1` in place of the stricter `length ≥ 2`). -/
def Board.Valid (b : Board) : Prop :=
  b.CellsDisjoint ∧ b.CellsInBounds ∧
  (b.vehicles.map Vehicle.id).Nodup ∧ ∀ v ∈ b.vehicles, 1 ≤ v.length

instance (b : Board) : Decidable b.Valid := by
  unfold Board.Valid; infer_instance

/-- Reachability `ReachN b n c`: `c` is obtained from `b` by a sequence of exactly
`n` moves, each produced by `get_possible_moves` of the state it is
applied to. -/
inductive ReachN : Board → Nat → Board → Prop where
  | refl (b : Board) : ReachN b 0 b
  | step {b c : Board} {n : Nat} {mv : Move} :
      ReachN b n c → mv ∈ c.get_possible_moves → ReachN b (n + 1) (c.move mv.1 mv.2)

/-- Replaying a move sequence in order from a board via `Board.move`. -/
def replayMoves (b : Board) (p : List Move) : Board :=
  p.foldl (fun c mv => c.move mv.1 mv.2) b

/-- A cell is occupied by a vehicle other than `v` (by id). -/
def otherOccupied (b : Board) (v : Vehicle) (p : Int × Int) : Prop :=
  ∃ w ∈ b.vehicles, w.id ≠ v.id ∧ p ∈ w.occupies

instance (b : Board) (v : Vehicle) (p : Int × Int) : Decidable (otherOccupied b v p) := by
  unfold otherOccupied; infer_instance

/-- The claim's blocking condition for sliding `v` by `shift`: some
cell of the shifted vehicle is out of bounds or occupied by a different
vehicle. -/
def slideBlocked (b : Board) (v : Vehicle) (shift : Int) : Prop :=
  ∃ p ∈ (v.moved shift).occupies, ¬ inBoundsCell b.size p ∨ otherOccupied b v p

instance (b : Board) (v : Vehicle) (shift : Int) : Decidable (slideBlocked b v shift) := by
  unfold slideBlocked; infer_instance

/-- The first forward step count (searching `1, 2, ...`) at which the
slide of `v` is blocked; on a valid board this search always succeeds
within `size` steps, so the fallback value is never used there. -/
def firstBlockFwd (b : Board) (v : Vehicle) : Nat :=
  (((List.range' 1 (b.size + 1)).find? (fun s : Nat => decide (slideBlocked b v (s : Int)))).getD
    (b.size + 2))

/-- The first backward step count at which the slide of `v` is blocked. -/
def firstBlockBwd (b : Board) (v : Vehicle) : Nat :=
  (((List.range' 1 (b.size + 1)).find? (fun s : Nat => decide (slideBlocked b v (-(s : Int))))).getD
    (b.size + 2))

/-! ## Boards, relations and invariants used by the statements -/

/-- A 6x6 board holding only a vertical target of length 2 whose
column-plus-length reaches the board edge. -/
def verticalTargetBoard : Board :=
  { size := 6, vehicles := [⟨"target", "vertical", 2, 0, 4⟩] }

/-- The 6x6 board of scenario A: only the target vehicle (horizontal,
length 2) anchored at row 2, column 0. -/
def scenarioABoard : Board :=
  { size := 6, vehicles := [⟨"target", "horizontal", 2, 2, 0⟩] }

/-- The disjointness relation on vehicles used by `CellsDisjoint`. -/
def cellsApart (v w : Vehicle) : Prop := ∀ p ∈ v.occupies, p ∉ w.occupies

/-- The step function of the fold inside `Board.move`. -/
def moveStep (i : String) (s : Int) (nb : Board) (w : Vehicle) : Board :=
  (nb.add_vehicle (if w.id = i then w.moved s else w)).2

/-- The cell of vehicle `v` at signed offset `t` along its axis. -/
def cellAt (v : Vehicle) (t : Int) : Int × Int :=
  if v.orientation = "horizontal" then (v.row, v.col + t) else (v.row + t, v.col)

/-- The forward step counts emitted for one vehicle. -/
def fwdSteps (b : Board) (v : Vehicle) : List Nat :=
  (List.range' 1 (b.size - 1)).takeWhile (fun s => !(fwdBad b b.get_occupied_cells v.occupies v s))

/-- The backward step counts emitted for one vehicle. -/
def bwdSteps (b : Board) (v : Vehicle) : List Nat :=
  (List.range' 1 (b.size - 1)).takeWhile (fun s => !(bwdBad b b.get_occupied_cells v.occupies v s))

/-- A valid 6x6 board with a single non-target vehicle. -/
def noTargetBoard : Board :=
  { size := 6, vehicles := [⟨"car_a", "horizontal", 2, 0, 0⟩] }

/-- The per-vehicle data that never changes across moves. -/
def skeleton (b : Board) : List (String × String × Nat) :=
  b.vehicles.map (fun v => (v.id, v.orientation, v.length))

/-- The invariant of `bfsLoop` used to prove that a reported success is
the graph-distance minimum.  `d0` is the depth of the queue head; the
queue holds depths `d0` and `d0 + 1` in order; every state within
distance `d0` of the root has been discovered (its hash is in the
visited list, which holds only unsolved reachable states), states
strictly below the head layer are fully expanded, and every visited
hash is either still on the queue or belongs to a fully expanded
state. -/
structure BfsInv (b : Board) (Q : List QEntry) (V : List SHash) (d0 : Nat) : Prop where
  headd : ∀ e t, Q = e :: t → e.2.1 = d0
  low : ∀ e ∈ Q, d0 ≤ e.2.1
  bound : ∀ e ∈ Q, e.2.1 ≤ d0 + 1
  sorted : List.Sorted (· ≤ ·) (Q.map (fun e => e.2.1))
  entries : ∀ e ∈ Q, ReachN b e.2.1 e.1 ∧ e.1.get_state_hash ∈ V ∧ e.1.is_solved = false
  vsound : ∀ h ∈ V, ∃ x m, ReachN b m x ∧ x.get_state_hash = h ∧ x.is_solved = false
  covered : ∀ m x, m ≤ d0 → ReachN b m x → x.get_state_hash ∈ V
  closedLt : ∀ m x, m < d0 → ReachN b m x → ∀ mv ∈ x.get_possible_moves,
    (x.move mv.1 mv.2).get_state_hash ∈ V
  expanded : ∀ h ∈ V, (∃ e ∈ Q, e.1.get_state_hash = h) ∨
    (∃ x m, ReachN b m x ∧ x.get_state_hash = h ∧
      ∀ mv ∈ x.get_possible_moves, (x.move mv.1 mv.2).get_state_hash ∈ V)
  entToDist : ∀ e ∈ Q, ∀ m, ReachN b m e.1 → e.2.1 ≤ m

/-! ## Basic characterizations -/

theorem overlapsAny_iff (cells : List (Int × Int)) (vs : List Vehicle) :
    overlapsAny cells vs = true ↔ ∃ p ∈ cells, ∃ w ∈ vs, p ∈ w.occupies := by
  simp only [overlapsAny, List.any_eq_true, decide_eq_true_eq]
  tauto

theorem mem_occupied_iff (b : Board) (p : Int × Int) :
    p ∈ b.get_occupied_cells ↔ ∃ w ∈ b.vehicles, p ∈ w.occupies := by
  simp [Board.get_occupied_cells, List.mem_flatMap]

theorem cellsOutOfBounds_iff (n : Nat) (cells : List (Int × Int)) :
    cellsOutOfBounds n cells = true ↔ ∃ p ∈ cells, ¬ inBoundsCell n p := by
  simp only [cellsOutOfBounds, List.any_eq_true, Bool.or_eq_true, decide_eq_true_eq]
  refine exists_congr fun p => and_congr_right fun _ => ?_
  unfold inBoundsCell
  omega

/-- C8: `add_vehicle` returns `false` and leaves the board unchanged
exactly when some cell of the new vehicle overlaps an existing
vehicle's cells or lies outside the grid; otherwise it inserts the
vehicle into the mapping and returns `true`.  The function is total, so
it never raises. -/
theorem add_vehicle_checks_overlap_and_bounds (b : Board) (v : Vehicle) :
    b.add_vehicle v =
      if (∃ p ∈ v.occupies, p ∈ b.get_occupied_cells) ∨ (∃ p ∈ v.occupies, ¬ inBoundsCell b.size p)
      then (false, b)
      else (true, { b with vehicles := dictInsert b.vehicles v }) := by
  unfold Board.add_vehicle
  by_cases h1 : overlapsAny v.occupies b.vehicles = true
  · rw [if_pos h1, if_pos]
    left
    rw [overlapsAny_iff] at h1
    simpa [mem_occupied_iff] using h1
  · rw [if_neg h1]
    by_cases h2 : cellsOutOfBounds b.size v.occupies = true
    · rw [if_pos h2, if_pos]
      right
      rw [cellsOutOfBounds_iff] at h2
      exact h2
    · rw [if_neg h2, if_neg]
      rintro (hov | hob)
      · refine h1 ((overlapsAny_iff _ _).mpr ?_)
        simpa [mem_occupied_iff] using hov
      · exact h2 ((cellsOutOfBounds_iff _ _).mpr hob)

/-- C10: with a `"target"` vehicle present, `is_solved` is
`target.col + target.length == size`, with no constraint on the
target's orientation or length. -/
theorem is_solved_iff_target_at_edge (b : Board) (t : Vehicle)
    (h : b.findVehicle ("target") = some t) :
    b.is_solved = true ↔ t.col + (t.length : Int) = (b.size : Int) := by
  simp [Board.is_solved, h]



/-- Witness for C10 at a concrete input: a vertical target with
`col + length = size` is reported solved. -/
theorem is_solved_iff_target_at_edge_witness :
    verticalTargetBoard.is_solved = true :=
  (is_solved_iff_target_at_edge verticalTargetBoard ⟨"target", "vertical", 2, 0, 4⟩
    (by decide)).mpr (by decide)

/-! ## Concrete scenario A (claim C6) -/



/-- C6 counterexample: on the scenario-A board the solver returns the
single move `("target", 4)` (the slide from column 0 to column 4), not
`("target", 3)` as the claim states. -/
theorem solve_scenarioA_not_three :
    solve_board 1 scenarioABoard = (true, 1, [("target", 4)]) ∧
      solve_board 1 scenarioABoard ≠ (true, 1, [("target", 3)]) := by
  constructor
  · rfl
  · decide

/-- C6 amended: for every fuel bound that lets the loop run at least
once, `solve_board` on the scenario-A board returns exactly
`(true, 1, [("target", 4)])`: one slide of 4 cells takes the target
from column 0 to column 4, whose edge is `4 + 2 = 6 = N`. -/
theorem solve_scenarioA (fuel : Nat) (h : 1 ≤ fuel) :
    solve_board fuel scenarioABoard = (true, 1, [("target", 4)]) := by
  cases fuel with
  | zero => omega
  | succ n =>
    show bfsLoop (n + 1) [(scenarioABoard, 0, [])] [scenarioABoard.get_state_hash] =
      (true, 1, [("target", 4)])
    rfl

/-- Witness for the amended C6 at fuel 2. -/
theorem solve_scenarioA_witness :
    solve_board 2 scenarioABoard = (true, 1, [("target", 4)]) :=
  solve_scenarioA 2 (by decide)

/-! ## Claim C7: moving with an illegal step count -/

/-- C7 counterexample: `("target", 10)` is not a move offered by
`get_possible_moves` of the scenario-A board, yet `move` neither
asserts nor fails: it returns a board in which the target vehicle has
silently disappeared (its re-placement failed the `add_vehicle` check),
deviating from the intended configuration. -/
theorem move_illegal_step_silently_drops :
    ("target", (10 : Int)) ∉ scenarioABoard.get_possible_moves ∧
      (scenarioABoard.move ("target") 10).findVehicle ("target") = none ∧
      scenarioABoard.findVehicle ("target") ≠ none := by
  refine ⟨by decide, by rfl, by decide⟩

/-! ## `add_vehicle` and `move` preserve disjointness and bounds -/



theorem cellsApart_symm {v w : Vehicle} (h : cellsApart v w) : cellsApart w v :=
  fun p hp hq => h p hq hp

theorem mem_dictInsert {vs : List Vehicle} {v w : Vehicle} (h : w ∈ dictInsert vs v) :
    w ∈ vs ∨ w = v := by
  unfold dictInsert at h
  split at h
  · rcases List.mem_map.mp h with ⟨u, hu, hw⟩
    by_cases hid : u.id = v.id
    · right; rw [← hw, if_pos hid]
    · left; rw [← hw, if_neg hid]; exact hu
  · rcases List.mem_append.mp h with h | h
    · exact Or.inl h
    · exact Or.inr (List.mem_singleton.mp h)

theorem dictInsert_ids_nodup {vs : List Vehicle} {v : Vehicle}
    (hn : (vs.map Vehicle.id).Nodup) : ((dictInsert vs v).map Vehicle.id).Nodup := by
  unfold dictInsert
  split
  · have : (vs.map (fun w => if w.id = v.id then v else w)).map Vehicle.id
        = vs.map Vehicle.id := by
      rw [List.map_map]
      refine List.map_congr_left fun w _ => ?_
      by_cases hid : w.id = v.id
      · simp [hid]
      · simp [hid]
    rw [this]; exact hn
  · next hno =>
    rw [List.map_append, List.nodup_append]
    refine ⟨hn, List.nodup_singleton _, ?_⟩
    intro x hx hx'
    rcases List.mem_map.mp hx with ⟨w, hw, hid⟩
    rcases List.mem_singleton.mp hx' with rfl
    exact hno ((List.any_eq_true).mpr ⟨w, hw, by simpa using hid⟩)

theorem add_vehicle_keeps_invariants (b : Board) (v : Vehicle)
    (hd : b.CellsDisjoint) (hin : b.CellsInBounds)
    (hn : (b.vehicles.map Vehicle.id).Nodup) :
    (b.add_vehicle v).2.CellsDisjoint ∧ (b.add_vehicle v).2.CellsInBounds ∧
      (((b.add_vehicle v).2.vehicles.map Vehicle.id).Nodup) ∧
      (b.add_vehicle v).2.size = b.size := by
  unfold Board.add_vehicle
  by_cases h1 : overlapsAny v.occupies b.vehicles = true
  · rw [if_pos h1]; exact ⟨hd, hin, hn, rfl⟩
  · rw [if_neg h1]
    by_cases h2 : cellsOutOfBounds b.size v.occupies = true
    · rw [if_pos h2]; exact ⟨hd, hin, hn, rfl⟩
    · rw [if_neg h2]
      have hnov : ∀ w ∈ b.vehicles, ∀ p ∈ v.occupies, p ∉ w.occupies := by
        intro w hw p hp hpw
        exact h1 ((overlapsAny_iff _ _).mpr ⟨p, hp, w, hw, hpw⟩)
      have hvb : ∀ p ∈ v.occupies, inBoundsCell b.size p := by
        intro p hp
        by_contra hnb
        exact h2 ((cellsOutOfBounds_iff _ _).mpr ⟨p, hp, hnb⟩)
      refine ⟨?_, ?_, dictInsert_ids_nodup hn, rfl⟩
      · unfold Board.CellsDisjoint dictInsert
        split
        · rw [List.pairwise_map]
          have hids : b.vehicles.Pairwise (fun a c => a.id ≠ c.id) := by
            rw [← List.pairwise_map (f := Vehicle.id)]
            exact hn
          refine (hd.and hids).imp_of_mem ?_
          intro a c ha hc h
          by_cases hA : a.id = v.id <;> by_cases hC : c.id = v.id
          · exact absurd (hA.trans hC.symm) h.2
          · rw [if_pos hA, if_neg hC]
            exact fun p hp => hnov c hc p hp
          · rw [if_neg hA, if_pos hC]
            exact fun p hp hpv => hnov a ha p hpv hp
          · rw [if_neg hA, if_neg hC]; exact h.1
        · rw [List.pairwise_append]
          refine ⟨hd, List.pairwise_singleton _ _, ?_⟩
          intro a ha w hw
          rcases List.mem_singleton.mp hw with rfl
          exact fun p hp hpv => hnov a ha p hpv hp
      · intro w hw p hp
        rcases mem_dictInsert hw with hw | rfl
        · exact hin w hw p hp
        · exact hvb p hp

/-- Every board obtained by re-adding vehicles to an empty board through
`add_vehicle`, as `Board.move` does, has disjoint in-bounds vehicles
with unique ids (some intended vehicles may have been dropped). -/
theorem move_keeps_invariants (b : Board) (i : String) (s : Int) :
    (b.move i s).CellsDisjoint ∧ (b.move i s).CellsInBounds ∧
      (((b.move i s).vehicles.map Vehicle.id).Nodup) ∧ (b.move i s).size = b.size := by
  unfold Board.move
  have main : ∀ (l : List Vehicle) (acc : Board),
      acc.CellsDisjoint → acc.CellsInBounds → ((acc.vehicles.map Vehicle.id).Nodup) →
      (l.foldl (fun nb w => (nb.add_vehicle (if w.id = i then w.moved s else w)).2) acc).CellsDisjoint ∧
      (l.foldl (fun nb w => (nb.add_vehicle (if w.id = i then w.moved s else w)).2) acc).CellsInBounds ∧
      (((l.foldl (fun nb w => (nb.add_vehicle (if w.id = i then w.moved s else w)).2) acc).vehicles.map Vehicle.id).Nodup) ∧
      (l.foldl (fun nb w => (nb.add_vehicle (if w.id = i then w.moved s else w)).2) acc).size = acc.size := by
    intro l
    induction l with
    | nil => intro acc h1 h2 h3; exact ⟨h1, h2, h3, rfl⟩
    | cons w t ih =>
      intro acc h1 h2 h3
      rcases add_vehicle_keeps_invariants acc (if w.id = i then w.moved s else w) h1 h2 h3 with
        ⟨g1, g2, g3, g4⟩
      rcases ih _ g1 g2 g3 with ⟨r1, r2, r3, r4⟩
      exact ⟨r1, r2, r3, r4.trans g4⟩
  have base : Board.CellsDisjoint { size := b.size, vehicles := [] } ∧
      Board.CellsInBounds { size := b.size, vehicles := [] } := by
    constructor
    · exact List.Pairwise.nil
    · intro v hv; cases hv
  simpa using main b.vehicles { size := b.size, vehicles := [] } base.1 base.2 (by simp)



theorem move_eq_foldl (b : Board) (i : String) (s : Int) :
    b.move i s = b.vehicles.foldl (moveStep i s) { size := b.size, vehicles := [] } := rfl

/-- One step of the `move` fold: membership in the new accumulator. -/
theorem mem_moveStep {i : String} {s : Int} {acc : Board} {u w' : Vehicle}
    (hw' : w' ∈ (moveStep i s acc u).vehicles) :
    w' ∈ acc.vehicles ∨ w' = (if u.id = i then u.moved s else u) := by
  unfold moveStep Board.add_vehicle at hw'
  by_cases h1 : overlapsAny (if u.id = i then u.moved s else u).occupies acc.vehicles = true
  · rw [if_pos h1] at hw'; exact Or.inl hw'
  · rw [if_neg h1] at hw'
    by_cases h2 : cellsOutOfBounds acc.size (if u.id = i then u.moved s else u).occupies = true
    · rw [if_pos h2] at hw'; exact Or.inl hw'
    · rw [if_neg h2] at hw'
      exact mem_dictInsert hw'

theorem move_vehicles_are_images (b : Board) (i : String) (s : Int) :
    ∀ w' ∈ (b.move i s).vehicles,
      ∃ w ∈ b.vehicles, w' = (if w.id = i then w.moved s else w) := by
  rw [move_eq_foldl]
  have key : ∀ (l : List Vehicle) (acc : Board),
      (∀ w' ∈ acc.vehicles, ∃ w ∈ b.vehicles, w' = (if w.id = i then w.moved s else w)) →
      (∀ w ∈ l, w ∈ b.vehicles) →
      ∀ w' ∈ (l.foldl (moveStep i s) acc).vehicles,
        ∃ w ∈ b.vehicles, w' = (if w.id = i then w.moved s else w) := by
    intro l
    induction l with
    | nil => intro acc hacc _ w' hw'; exact hacc w' hw'
    | cons u t ih =>
      intro acc hacc hl
      refine ih _ ?_ (fun w hw => hl w (List.mem_cons_of_mem _ hw))
      intro w' hw'
      rcases mem_moveStep hw' with hw' | rfl
      · exact hacc w' hw'
      · exact ⟨u, hl u (List.mem_cons_self _ _), rfl⟩
  exact key b.vehicles { size := b.size, vehicles := [] } (by intro w hw; cases hw)
    (fun w hw => hw)

/-- C4: starting from a board whose vehicles are pairwise disjoint and
in bounds, applying any move offered by `get_possible_moves` yields a
board that is again pairwise disjoint and in bounds. -/
theorem legal_move_keeps_board_valid (b : Board) (i : String) (s : Int)
    (hd : b.CellsDisjoint) (hin : b.CellsInBounds)
    (hmv : (i, s) ∈ b.get_possible_moves) :
    (b.move i s).CellsDisjoint ∧ (b.move i s).CellsInBounds :=
  ⟨(move_keeps_invariants b i s).1, (move_keeps_invariants b i s).2.1⟩

/-- Witness for C4 at a concrete input. -/
theorem legal_move_keeps_board_valid_witness :
    (scenarioABoard.move ("target") 1).CellsDisjoint ∧
      (scenarioABoard.move ("target") 1).CellsInBounds :=
  legal_move_keeps_board_valid scenarioABoard ("target") 1 (by decide) (by decide) (by decide)

/-- C7 amended: `move` with an arbitrary (possibly illegal) step count
does not fail loudly; it totally returns a board that is still pairwise
disjoint and in bounds, but vehicles whose re-placement fails the
`add_vehicle` check are silently dropped, so the result can deviate
from the intended configuration. -/
theorem move_never_fails_but_may_drop (b : Board) (i : String) (s : Int) :
    (b.move i s).CellsDisjoint ∧ (b.move i s).CellsInBounds ∧
      ∀ w' ∈ (b.move i s).vehicles,
        ∃ w ∈ b.vehicles, w' = (if w.id = i then w.moved s else w) :=
  ⟨(move_keeps_invariants b i s).1, (move_keeps_invariants b i s).2.1,
    move_vehicles_are_images b i s⟩

/-! ## Cell geometry of a vehicle -/



theorem occupies_eq_map_cellAt (v : Vehicle) :
    v.occupies = (List.range v.length).map (fun i : Nat => cellAt v (i : Int)) := rfl

theorem mem_occupies_iff {v : Vehicle} {p : Int × Int} :
    p ∈ v.occupies ↔ ∃ t : Int, 0 ≤ t ∧ t < (v.length : Int) ∧ p = cellAt v t := by
  rw [occupies_eq_map_cellAt]
  constructor
  · intro h
    rcases List.mem_map.mp h with ⟨i, hi, rfl⟩
    exact ⟨(i : Int), Int.natCast_nonneg i, by exact_mod_cast List.mem_range.mp hi, rfl⟩
  · rintro ⟨t, ht0, htl, rfl⟩
    refine List.mem_map.mpr ⟨t.toNat, List.mem_range.mpr (by omega), ?_⟩
    rw [Int.toNat_of_nonneg ht0]

theorem moved_id (v : Vehicle) (s : Int) : (v.moved s).id = v.id := by
  unfold Vehicle.moved; split <;> rfl

theorem moved_orientation (v : Vehicle) (s : Int) : (v.moved s).orientation = v.orientation := by
  unfold Vehicle.moved; split <;> rfl

theorem moved_length (v : Vehicle) (s : Int) : (v.moved s).length = v.length := by
  unfold Vehicle.moved; split <;> rfl

theorem cellAt_moved (v : Vehicle) (s t : Int) : cellAt (v.moved s) t = cellAt v (s + t) := by
  unfold Vehicle.moved cellAt
  by_cases h : v.orientation = "horizontal" <;> simp [h] <;> ring

theorem mem_moved_occupies {v : Vehicle} {s : Int} {p : Int × Int} :
    p ∈ (v.moved s).occupies ↔ ∃ t : Int, 0 ≤ t ∧ t < (v.length : Int) ∧ p = cellAt v (s + t) := by
  rw [mem_occupies_iff, moved_length]
  exact exists_congr fun t => and_congr_right fun _ => and_congr_right fun _ => by
    rw [cellAt_moved]

theorem cellAt_inj {v : Vehicle} {a b : Int} (h : cellAt v a = cellAt v b) : a = b := by
  unfold cellAt at h
  by_cases ho : v.orientation = "horizontal" <;> simp [ho, Prod.ext_iff] at h <;> omega

theorem cellAt_mono {v : Vehicle} {a b : Int} (h : a ≤ b) :
    (cellAt v a).1 ≤ (cellAt v b).1 ∧ (cellAt v a).2 ≤ (cellAt v b).2 := by
  unfold cellAt
  by_cases ho : v.orientation = "horizontal" <;> simp [ho] <;> omega

/-! ## Unfolding the per-step blocking tests -/

theorem fwdBad_eq_true_iff {b : Board} {o y : List (Int × Int)} {v : Vehicle} {k : Nat}
    (hl : 1 ≤ v.length) :
    fwdBad b o y v k = true ↔
      ((b.size : Int) ≤ (cellAt v ((v.length : Int) - 1 + (k : Int))).1 ∨
       (b.size : Int) ≤ (cellAt v ((v.length : Int) - 1 + (k : Int))).2 ∨
       (cellAt v ((v.length : Int) - 1 + (k : Int)) ∈ o ∧
        cellAt v ((v.length : Int) - 1 + (k : Int)) ∉ y)) := by
  unfold fwdBad
  have hrc : (if v.orientation = "horizontal" then
        (v.row, v.col + (v.length : Int) - 1 + (k : Int))
      else (v.row + (v.length : Int) - 1 + (k : Int), v.col)) =
      cellAt v ((v.length : Int) - 1 + (k : Int)) := by
    unfold cellAt
    by_cases ho : v.orientation = "horizontal" <;> simp [ho] <;> ring
  rw [hrc]
  rw [List.any_eq_true]
  constructor
  · rintro ⟨i, _, hcond⟩
    simp only [Bool.or_eq_true, Bool.and_eq_true, decide_eq_true_eq, Bool.not_eq_true',
      decide_eq_false_iff_not] at hcond
    tauto
  · intro hcond
    refine ⟨0, List.mem_range.mpr (by omega), ?_⟩
    simp only [Bool.or_eq_true, Bool.and_eq_true, decide_eq_true_eq, Bool.not_eq_true',
      decide_eq_false_iff_not]
    tauto

theorem bwdBad_eq_true_iff {b : Board} {o y : List (Int × Int)} {v : Vehicle} {k : Nat}
    (hl : 1 ≤ v.length) :
    bwdBad b o y v k = true ↔
      ((cellAt v (-(k : Int))).1 < 0 ∨ (cellAt v (-(k : Int))).2 < 0 ∨
       (cellAt v (-(k : Int)) ∈ o ∧ cellAt v (-(k : Int)) ∉ y)) := by
  unfold bwdBad
  have hrc : (if v.orientation = "horizontal" then (v.row, v.col - (k : Int))
      else (v.row - (k : Int), v.col)) = cellAt v (-(k : Int)) := by
    unfold cellAt
    by_cases ho : v.orientation = "horizontal" <;> simp [ho] <;> ring
  rw [hrc]
  rw [List.any_eq_true]
  constructor
  · rintro ⟨i, _, hcond⟩
    simp only [Bool.or_eq_true, Bool.and_eq_true, decide_eq_true_eq, Bool.not_eq_true',
      decide_eq_false_iff_not] at hcond
    tauto
  · intro hcond
    refine ⟨0, List.mem_range.mpr (by omega), ?_⟩
    simp only [Bool.or_eq_true, Bool.and_eq_true, decide_eq_true_eq, Bool.not_eq_true',
      decide_eq_false_iff_not]
    tauto

/-! ## `takeWhile` over `range'` -/

theorem mem_takeWhile_range' {p : Nat → Bool} {a n k : Nat}
    (h : k ∈ (List.range' a n).takeWhile p) :
    a ≤ k ∧ k < a + n ∧ ∀ j, a ≤ j → j ≤ k → p j = true := by
  induction n generalizing a with
  | zero => simp [List.range'] at h
  | succ n ih =>
    rw [List.range'_succ] at h
    by_cases hpa : p a
    · rw [List.takeWhile_cons_of_pos hpa] at h
      rcases List.mem_cons.mp h with rfl | h
      · exact ⟨le_refl _, by omega, fun j h1 h2 => by rwa [le_antisymm h2 h1]⟩
      · rcases ih h with ⟨h1, h2, h3⟩
        refine ⟨by omega, by omega, fun j hj1 hj2 => ?_⟩
        rcases Nat.eq_or_lt_of_le hj1 with rfl | hj1
        · exact hpa
        · exact h3 j (by omega) hj2
    · rw [List.takeWhile_cons_of_neg (by simpa using hpa)] at h
      cases h

theorem mem_takeWhile_range'_of {p : Nat → Bool} {a n k : Nat}
    (h1 : a ≤ k) (h2 : k < a + n) (h3 : ∀ j, a ≤ j → j ≤ k → p j = true) :
    k ∈ (List.range' a n).takeWhile p := by
  induction n generalizing a with
  | zero => omega
  | succ n ih =>
    rw [List.range'_succ]
    rw [List.takeWhile_cons_of_pos (h3 a (le_refl _) h1)]
    rcases Nat.eq_or_lt_of_le h1 with rfl | h1
    · exact List.mem_cons_self _ _
    · exact List.mem_cons_of_mem _ (ih h1 (by omega) (fun j hj1 hj2 => h3 j (by omega) hj2))

/-! ## `find?` over `range'` finds the least satisfying value -/

theorem find?_range'_least {p : Nat → Bool} {a n k : Nat}
    (h : (List.range' a n).find? p = some k) :
    p k = true ∧ a ≤ k ∧ k < a + n ∧ ∀ j, a ≤ j → j < k → p j = false := by
  induction n generalizing a with
  | zero => simp [List.range'] at h
  | succ n ih =>
    rw [List.range'_succ] at h
    by_cases hpa : p a
    · rw [List.find?_cons_of_pos _ hpa] at h
      rcases Option.some_inj.mp h with rfl
      exact ⟨hpa, le_refl _, by omega, fun j h1 h2 => by omega⟩
    · rw [List.find?_cons_of_neg _ (by simpa using hpa)] at h
      rcases ih h with ⟨h1, h2, h3, h4⟩
      refine ⟨h1, by omega, by omega, fun j hj1 hj2 => ?_⟩
      rcases Nat.eq_or_lt_of_le hj1 with rfl | hj1
      · simpa using hpa
      · exact h4 j (by omega) hj2

theorem find?_range'_exists {p : Nat → Bool} {a n j : Nat}
    (h1 : a ≤ j) (h2 : j < a + n) (h3 : p j = true) :
    ∃ k, (List.range' a n).find? p = some k := by
  cases hf : (List.range' a n).find? p with
  | some k => exact ⟨k, rfl⟩
  | none =>
    rw [List.find?_eq_none] at hf
    exact absurd h3 (by simpa using hf j (List.mem_range'_1.mpr ⟨h1, h2⟩))

/-! ## Facts available on a valid board -/

theorem valid_id_inj {b : Board} (hb : b.Valid) {v w : Vehicle}
    (hv : v ∈ b.vehicles) (hw : w ∈ b.vehicles) (h : w.id = v.id) : w = v :=
  List.inj_on_of_nodup_map hb.2.2.1 hw hv h

theorem valid_disjoint_of_ne_id {b : Board} (hb : b.Valid) {v w : Vehicle}
    (hv : v ∈ b.vehicles) (hw : w ∈ b.vehicles) (hne : w.id ≠ v.id) :
    ∀ p ∈ v.occupies, p ∉ w.occupies := by
  have hsym : Symmetric (fun v w : Vehicle => ∀ p ∈ v.occupies, p ∉ w.occupies) :=
    fun x y h p hp hq => h p hq hp
  exact hb.1.forall hsym hv hw (fun he => hne (by rw [he]))

theorem valid_cell_inb {b : Board} (hb : b.Valid) {v : Vehicle} (hv : v ∈ b.vehicles)
    {t : Int} (h0 : 0 ≤ t) (h1 : t < (v.length : Int)) :
    inBoundsCell b.size (cellAt v t) :=
  hb.2.1 v hv _ (mem_occupies_iff.mpr ⟨t, h0, h1, rfl⟩)

theorem valid_own_not_other {b : Board} (hb : b.Valid) {v : Vehicle} (hv : v ∈ b.vehicles)
    {t : Int} (h0 : 0 ≤ t) (h1 : t < (v.length : Int)) :
    ¬ otherOccupied b v (cellAt v t) := by
  rintro ⟨w, hw, hne, hp⟩
  exact valid_disjoint_of_ne_id hb hv hw hne _ (mem_occupies_iff.mpr ⟨t, h0, h1, rfl⟩) hp

theorem valid_other_iff {b : Board} (hb : b.Valid) {v : Vehicle} (hv : v ∈ b.vehicles)
    {p : Int × Int} (hnm : p ∉ v.occupies) :
    otherOccupied b v p ↔ p ∈ b.get_occupied_cells := by
  constructor
  · rintro ⟨w, hw, _, hp⟩
    exact (mem_occupied_iff b p).mpr ⟨w, hw, hp⟩
  · intro h
    rcases (mem_occupied_iff b p).mp h with ⟨w, hw, hp⟩
    refine ⟨w, hw, fun he => ?_, hp⟩
    exact hnm (valid_id_inj hb hv hw he ▸ hp)

theorem cellAt_zero (v : Vehicle) : cellAt v 0 = (v.row, v.col) := by
  unfold cellAt; split <;> simp

theorem cellAt_too_far_not_inb {b : Board} {v : Vehicle}
    (h0 : inBoundsCell b.size (cellAt v 0)) {t : Int} (ht : (b.size : Int) ≤ t) :
    ¬ inBoundsCell b.size (cellAt v t) := by
  rw [cellAt_zero] at h0
  unfold cellAt inBoundsCell
  unfold inBoundsCell at h0
  by_cases ho : v.orientation = "horizontal" <;> simp [ho] at h0 ⊢ <;> omega

theorem cellAt_too_neg_not_inb {b : Board} {v : Vehicle}
    (h0 : inBoundsCell b.size (cellAt v 0)) {t : Int} (ht : t ≤ -(b.size : Int)) :
    ¬ inBoundsCell b.size (cellAt v t) := by
  rw [cellAt_zero] at h0
  unfold cellAt inBoundsCell
  unfold inBoundsCell at h0
  by_cases ho : v.orientation = "horizontal" <;> simp [ho] at h0 ⊢ <;> omega

/-! ## Forward probing versus the claim's blocking condition -/

theorem fwd_front_good {b : Board} (hb : b.Valid) {v : Vehicle} (hv : v ∈ b.vehicles)
    {j : Nat} (hj : 1 ≤ j)
    (hbad : fwdBad b b.get_occupied_cells v.occupies v j = false) :
    inBoundsCell b.size (cellAt v ((v.length : Int) - 1 + (j : Int))) ∧
      cellAt v ((v.length : Int) - 1 + (j : Int)) ∉ b.get_occupied_cells := by
  have hl : 1 ≤ v.length := hb.2.2.2 v hv
  have hiff := fwdBad_eq_true_iff (b := b) (o := b.get_occupied_cells)
    (y := v.occupies) (v := v) (k := j) hl
  have hnot : ¬ (fwdBad b b.get_occupied_cells v.occupies v j = true) := by simp [hbad]
  rw [hiff] at hnot
  push_neg at hnot
  obtain ⟨h1, h2, h3⟩ := hnot
  have hnm : cellAt v ((v.length : Int) - 1 + (j : Int)) ∉ v.occupies := by
    intro hmem
    rcases mem_occupies_iff.mp hmem with ⟨t, ht0, htl, he⟩
    have := cellAt_inj he.symm
    omega
  have hno : cellAt v ((v.length : Int) - 1 + (j : Int)) ∉ b.get_occupied_cells := by
    intro hocc
    exact hnm (h3 hocc)
  have h0 : inBoundsCell b.size (cellAt v 0) := valid_cell_inb hb hv (le_refl 0) (by omega)
  have hmono := cellAt_mono (v := v) (a := 0) (b := (v.length : Int) - 1 + (j : Int)) (by omega)
  rcases h0 with ⟨g1, g2, g3, g4⟩
  exact ⟨⟨by omega, by omega, by omega, by omega⟩, hno⟩

theorem fwdBad_true_blocked {b : Board} (hb : b.Valid) {v : Vehicle} (hv : v ∈ b.vehicles)
    {j : Nat} (hj : 1 ≤ j)
    (hbad : fwdBad b b.get_occupied_cells v.occupies v j = true) :
    slideBlocked b v (j : Int) := by
  have hl : 1 ≤ v.length := hb.2.2.2 v hv
  have hmem : cellAt v ((v.length : Int) - 1 + (j : Int)) ∈ (v.moved (j : Int)).occupies := by
    refine mem_moved_occupies.mpr ⟨(v.length : Int) - 1, by omega, by omega, ?_⟩
    congr 1; ring
  have hnm : cellAt v ((v.length : Int) - 1 + (j : Int)) ∉ v.occupies := by
    intro hm
    rcases mem_occupies_iff.mp hm with ⟨t, ht0, htl, he⟩
    have := cellAt_inj he.symm
    omega
  rcases (fwdBad_eq_true_iff (o := b.get_occupied_cells) (y := v.occupies) hl).mp hbad with
    h | h | ⟨hocc, _⟩
  · exact ⟨_, hmem, Or.inl (fun hc => by rcases hc with ⟨_, c1, _, _⟩; omega)⟩
  · exact ⟨_, hmem, Or.inl (fun hc => by rcases hc with ⟨_, _, _, c2⟩; omega)⟩
  · exact ⟨_, hmem, Or.inr ((valid_other_iff hb hv hnm).mpr hocc)⟩

theorem slideBlocked_fwd_imp {b : Board} (hb : b.Valid) {v : Vehicle} (hv : v ∈ b.vehicles)
    {k : Nat} (hk : 1 ≤ k) (hblk : slideBlocked b v (k : Int)) :
    ∃ j : Nat, 1 ≤ j ∧ j ≤ k ∧ fwdBad b b.get_occupied_cells v.occupies v j = true := by
  have hl : 1 ≤ v.length := hb.2.2.2 v hv
  rcases hblk with ⟨p, hp, hbad⟩
  rcases mem_moved_occupies.mp hp with ⟨t, ht0, htl, rfl⟩
  by_cases hown : (k : Int) + t < (v.length : Int)
  · exfalso
    rcases hbad with hnb | hoth
    · exact hnb (valid_cell_inb hb hv (by omega) (by omega))
    · exact valid_own_not_other hb hv (by omega) (by omega) hoth
  · push_neg at hown
    set j : Nat := ((k : Int) + t - (v.length : Int) + 1).toNat with hjdef
    have hj1 : (j : Int) = (k : Int) + t - (v.length : Int) + 1 := by
      rw [hjdef]; rw [Int.toNat_of_nonneg (by omega)]
    have hfc : cellAt v ((v.length : Int) - 1 + (j : Int)) = cellAt v ((k : Int) + t) := by
      congr 1; omega
    refine ⟨j, by omega, by omega, ?_⟩
    rw [fwdBad_eq_true_iff hl, hfc]
    have hnm : cellAt v ((k : Int) + t) ∉ v.occupies := by
      intro hm
      rcases mem_occupies_iff.mp hm with ⟨u, hu0, hul, he⟩
      have := cellAt_inj he.symm
      omega
    rcases hbad with hnb | hoth
    · have h0 : inBoundsCell b.size (cellAt v 0) := valid_cell_inb hb hv (le_refl 0) (by omega)
      have hmono := cellAt_mono (v := v) (a := 0) (b := (k : Int) + t) (by omega)
      rcases h0 with ⟨g1, g2, g3, g4⟩
      unfold inBoundsCell at hnb
      push_neg at hnb
      by_cases hc1 : (b.size : Int) ≤ (cellAt v ((k : Int) + t)).1
      · exact Or.inl hc1
      · refine Or.inr (Or.inl ?_)
        push_neg at hc1
        rcases lt_or_le (cellAt v ((k : Int) + t)).2 (b.size : Int) with hc2 | hc2
        · exfalso
          have := hnb (by omega) (by omega) (by omega)
          omega
        · exact hc2
    · exact Or.inr (Or.inr ⟨(valid_other_iff hb hv hnm).mp hoth, hnm⟩)

/-! ## Backward probing versus the claim's blocking condition -/

theorem bwd_back_good {b : Board} (hb : b.Valid) {v : Vehicle} (hv : v ∈ b.vehicles)
    {j : Nat} (hj : 1 ≤ j)
    (hbad : bwdBad b b.get_occupied_cells v.occupies v j = false) :
    inBoundsCell b.size (cellAt v (-(j : Int))) ∧
      cellAt v (-(j : Int)) ∉ b.get_occupied_cells := by
  have hl : 1 ≤ v.length := hb.2.2.2 v hv
  have hiff := bwdBad_eq_true_iff (b := b) (o := b.get_occupied_cells)
    (y := v.occupies) (v := v) (k := j) hl
  have hnot : ¬ (bwdBad b b.get_occupied_cells v.occupies v j = true) := by simp [hbad]
  rw [hiff] at hnot
  push_neg at hnot
  obtain ⟨h1, h2, h3⟩ := hnot
  have hnm : cellAt v (-(j : Int)) ∉ v.occupies := by
    intro hmem
    rcases mem_occupies_iff.mp hmem with ⟨t, ht0, htl, he⟩
    have := cellAt_inj he.symm
    omega
  have hno : cellAt v (-(j : Int)) ∉ b.get_occupied_cells := fun hocc => hnm (h3 hocc)
  have h0 : inBoundsCell b.size (cellAt v 0) := valid_cell_inb hb hv (le_refl 0) (by omega)
  have hmono := cellAt_mono (v := v) (a := -(j : Int)) (b := 0) (by omega)
  rcases h0 with ⟨g1, g2, g3, g4⟩
  exact ⟨⟨by omega, by omega, by omega, by omega⟩, hno⟩

theorem bwdBad_true_blocked {b : Board} (hb : b.Valid) {v : Vehicle} (hv : v ∈ b.vehicles)
    {j : Nat} (hj : 1 ≤ j)
    (hbad : bwdBad b b.get_occupied_cells v.occupies v j = true) :
    slideBlocked b v (-(j : Int)) := by
  have hl : 1 ≤ v.length := hb.2.2.2 v hv
  have hmem : cellAt v (-(j : Int)) ∈ (v.moved (-(j : Int))).occupies := by
    refine mem_moved_occupies.mpr ⟨0, le_refl 0, by omega, ?_⟩
    congr 1; ring
  have hnm : cellAt v (-(j : Int)) ∉ v.occupies := by
    intro hm
    rcases mem_occupies_iff.mp hm with ⟨t, ht0, htl, he⟩
    have := cellAt_inj he.symm
    omega
  rcases (bwdBad_eq_true_iff (o := b.get_occupied_cells) (y := v.occupies) hl).mp hbad with
    h | h | ⟨hocc, _⟩
  · exact ⟨_, hmem, Or.inl (fun hc => by rcases hc with ⟨c1, _, _, _⟩; omega)⟩
  · exact ⟨_, hmem, Or.inl (fun hc => by rcases hc with ⟨_, _, c2, _⟩; omega)⟩
  · exact ⟨_, hmem, Or.inr ((valid_other_iff hb hv hnm).mpr hocc)⟩

theorem slideBlocked_bwd_imp {b : Board} (hb : b.Valid) {v : Vehicle} (hv : v ∈ b.vehicles)
    {k : Nat} (hk : 1 ≤ k) (hblk : slideBlocked b v (-(k : Int))) :
    ∃ j : Nat, 1 ≤ j ∧ j ≤ k ∧ bwdBad b b.get_occupied_cells v.occupies v j = true := by
  have hl : 1 ≤ v.length := hb.2.2.2 v hv
  rcases hblk with ⟨p, hp, hbad⟩
  rcases mem_moved_occupies.mp hp with ⟨t, ht0, htl, rfl⟩
  by_cases hown : (k : Int) ≤ t
  · exfalso
    rcases hbad with hnb | hoth
    · refine hnb ?_
      have : -(k : Int) + t = t - (k : Int) := by ring
      rw [this]
      exact valid_cell_inb hb hv (by omega) (by omega)
    · have : -(k : Int) + t = t - (k : Int) := by ring
      rw [this] at hoth
      exact valid_own_not_other hb hv (by omega) (by omega) hoth
  · push_neg at hown
    set j : Nat := ((k : Int) - t).toNat with hjdef
    have hj1 : (j : Int) = (k : Int) - t := by
      rw [hjdef]; rw [Int.toNat_of_nonneg (by omega)]
    have hfc : cellAt v (-(j : Int)) = cellAt v (-(k : Int) + t) := by
      congr 1; omega
    refine ⟨j, by omega, by omega, ?_⟩
    rw [bwdBad_eq_true_iff hl, hfc]
    have hnm : cellAt v (-(k : Int) + t) ∉ v.occupies := by
      intro hm
      rcases mem_occupies_iff.mp hm with ⟨u, hu0, hul, he⟩
      have := cellAt_inj he.symm
      omega
    rcases hbad with hnb | hoth
    · have h0 : inBoundsCell b.size (cellAt v 0) := valid_cell_inb hb hv (le_refl 0) (by omega)
      have hfar : inBoundsCell b.size (cellAt v ((v.length : Int) - 1)) :=
        valid_cell_inb hb hv (by omega) (by omega)
      have hmono := cellAt_mono (v := v) (a := -(k : Int) + t) (b := (v.length : Int) - 1)
        (by omega)
      rcases hfar with ⟨g1, g2, g3, g4⟩
      unfold inBoundsCell at hnb
      push_neg at hnb
      by_cases hc1 : (cellAt v (-(k : Int) + t)).1 < 0
      · exact Or.inl hc1
      · refine Or.inr (Or.inl ?_)
        push_neg at hc1
        rcases lt_or_le (cellAt v (-(k : Int) + t)).2 0 with hc2 | hc2
        · exact hc2
        · exfalso
          have := hnb hc1 (by omega) hc2
          omega
    · exact Or.inr (Or.inr ⟨(valid_other_iff hb hv hnm).mp hoth, hnm⟩)

/-! ## The emitted step lists -/





theorem get_possible_moves_eq (b : Board) :
    b.get_possible_moves = b.vehicles.flatMap (fun v =>
      (fwdSteps b v).map (fun s : Nat => (v.id, (s : Int))) ++
      (bwdSteps b v).map (fun s : Nat => (v.id, -(s : Int)))) := rfl

theorem mem_moves_iff (b : Board) (m : Move) :
    m ∈ b.get_possible_moves ↔ ∃ v ∈ b.vehicles,
      ((∃ k ∈ fwdSteps b v, (v.id, (k : Int)) = m) ∨
       (∃ k ∈ bwdSteps b v, (v.id, -(k : Int)) = m)) := by
  rw [get_possible_moves_eq]
  simp [List.mem_flatMap, List.mem_append, List.mem_map]

theorem mem_fwdSteps {b : Board} {v : Vehicle} {k : Nat} (h : k ∈ fwdSteps b v) :
    1 ≤ k ∧ k < b.size ∧
      ∀ j, 1 ≤ j → j ≤ k → fwdBad b b.get_occupied_cells v.occupies v j = false := by
  rcases mem_takeWhile_range' h with ⟨h1, h2, h3⟩
  exact ⟨h1, by omega, fun j hj1 hj2 => by simpa using h3 j hj1 hj2⟩

theorem mem_fwdSteps_of {b : Board} {v : Vehicle} {k : Nat} (h1 : 1 ≤ k) (h2 : k < b.size)
    (h3 : ∀ j, 1 ≤ j → j ≤ k → fwdBad b b.get_occupied_cells v.occupies v j = false) :
    k ∈ fwdSteps b v :=
  mem_takeWhile_range'_of h1 (by omega) (fun j hj1 hj2 => by simpa using h3 j hj1 hj2)

theorem mem_bwdSteps {b : Board} {v : Vehicle} {k : Nat} (h : k ∈ bwdSteps b v) :
    1 ≤ k ∧ k < b.size ∧
      ∀ j, 1 ≤ j → j ≤ k → bwdBad b b.get_occupied_cells v.occupies v j = false := by
  rcases mem_takeWhile_range' h with ⟨h1, h2, h3⟩
  exact ⟨h1, by omega, fun j hj1 hj2 => by simpa using h3 j hj1 hj2⟩

theorem mem_bwdSteps_of {b : Board} {v : Vehicle} {k : Nat} (h1 : 1 ≤ k) (h2 : k < b.size)
    (h3 : ∀ j, 1 ≤ j → j ≤ k → bwdBad b b.get_occupied_cells v.occupies v j = false) :
    k ∈ bwdSteps b v :=
  mem_takeWhile_range'_of h1 (by omega) (fun j hj1 hj2 => by simpa using h3 j hj1 hj2)

/-! ## The first blocked step count on a valid board -/

theorem valid_size_pos {b : Board} (hb : b.Valid) {v : Vehicle} (hv : v ∈ b.vehicles) :
    1 ≤ b.size := by
  have hl : 1 ≤ v.length := hb.2.2.2 v hv
  rcases valid_cell_inb hb hv (t := 0) (le_refl 0) (by omega) with ⟨g1, g2, _, _⟩
  omega

theorem slideBlocked_at_size_fwd {b : Board} (hb : b.Valid) {v : Vehicle}
    (hv : v ∈ b.vehicles) : slideBlocked b v ((b.size : Int)) := by
  have hl : 1 ≤ v.length := hb.2.2.2 v hv
  refine ⟨cellAt v ((b.size : Int) + ((v.length : Int) - 1)),
    mem_moved_occupies.mpr ⟨(v.length : Int) - 1, by omega, by omega, rfl⟩, Or.inl ?_⟩
  exact cellAt_too_far_not_inb (valid_cell_inb hb hv (le_refl 0) (by omega)) (by omega)

theorem slideBlocked_at_size_bwd {b : Board} (hb : b.Valid) {v : Vehicle}
    (hv : v ∈ b.vehicles) : slideBlocked b v (-(b.size : Int)) := by
  have hl : 1 ≤ v.length := hb.2.2.2 v hv
  refine ⟨cellAt v (-(b.size : Int) + 0),
    mem_moved_occupies.mpr ⟨0, le_refl 0, by omega, rfl⟩, Or.inl ?_⟩
  exact cellAt_too_neg_not_inb (valid_cell_inb hb hv (le_refl 0) (by omega)) (by omega)

theorem firstBlockFwd_spec {b : Board} (hb : b.Valid) {v : Vehicle} (hv : v ∈ b.vehicles) :
    slideBlocked b v ((firstBlockFwd b v : Nat) : Int) ∧ 1 ≤ firstBlockFwd b v ∧
      firstBlockFwd b v ≤ b.size ∧
      ∀ j : Nat, 1 ≤ j → j < firstBlockFwd b v → ¬ slideBlocked b v (j : Int) := by
  have hN : 1 ≤ b.size := valid_size_pos hb hv
  have hpN : (fun s : Nat => decide (slideBlocked b v (s : Int))) b.size = true :=
    decide_eq_true (slideBlocked_at_size_fwd hb hv)
  obtain ⟨k, hk⟩ := find?_range'_exists (p := fun s : Nat => decide (slideBlocked b v (s : Int)))
    (a := 1) (n := b.size + 1) (j := b.size) hN (by omega) hpN
  rcases find?_range'_least hk with ⟨hpk, hk1, hk2, hleast⟩
  have hfb : firstBlockFwd b v = k := by
    unfold firstBlockFwd
    rw [hk]
    rfl
  have hkN : k ≤ b.size := by
    by_contra hgt
    push_neg at hgt
    have := hleast b.size hN hgt
    exact absurd (of_decide_eq_true hpN) (of_decide_eq_false this)
  refine hfb ▸ ⟨of_decide_eq_true hpk, hk1, hkN, fun j hj1 hj2 hblk => ?_⟩
  have := hleast j hj1 hj2
  rw [decide_eq_true hblk] at this
  cases this

theorem firstBlockBwd_spec {b : Board} (hb : b.Valid) {v : Vehicle} (hv : v ∈ b.vehicles) :
    slideBlocked b v (-((firstBlockBwd b v : Nat) : Int)) ∧ 1 ≤ firstBlockBwd b v ∧
      firstBlockBwd b v ≤ b.size ∧
      ∀ j : Nat, 1 ≤ j → j < firstBlockBwd b v → ¬ slideBlocked b v (-(j : Int)) := by
  have hN : 1 ≤ b.size := valid_size_pos hb hv
  have hpN : (fun s : Nat => decide (slideBlocked b v (-(s : Int)))) b.size = true :=
    decide_eq_true (slideBlocked_at_size_bwd hb hv)
  obtain ⟨k, hk⟩ := find?_range'_exists (p := fun s : Nat => decide (slideBlocked b v (-(s : Int))))
    (a := 1) (n := b.size + 1) (j := b.size) hN (by omega) hpN
  rcases find?_range'_least hk with ⟨hpk, hk1, hk2, hleast⟩
  have hfb : firstBlockBwd b v = k := by
    unfold firstBlockBwd
    rw [hk]
    rfl
  have hkN : k ≤ b.size := by
    by_contra hgt
    push_neg at hgt
    have := hleast b.size hN hgt
    exact absurd (of_decide_eq_true hpN) (of_decide_eq_false this)
  refine hfb ▸ ⟨of_decide_eq_true hpk, hk1, hkN, fun j hj1 hj2 hblk => ?_⟩
  have := hleast j hj1 hj2
  rw [decide_eq_true hblk] at this
  cases this

/-! ## Per-vehicle characterization of emitted steps -/

theorem fwdSteps_mem_iff {b : Board} (hb : b.Valid) {v : Vehicle} (hv : v ∈ b.vehicles)
    (s : Nat) : s ∈ fwdSteps b v ↔ 1 ≤ s ∧ s < firstBlockFwd b v := by
  rcases firstBlockFwd_spec hb hv with ⟨hblk, hK1, hKN, hleast⟩
  constructor
  · intro h
    rcases mem_fwdSteps h with ⟨h1, h2, h3⟩
    refine ⟨h1, ?_⟩
    by_contra hge
    push_neg at hge
    rcases slideBlocked_fwd_imp hb hv hK1 hblk with ⟨j, hj1, hj2, hjt⟩
    rw [h3 j hj1 (by omega)] at hjt
    cases hjt
  · rintro ⟨h1, h2⟩
    refine mem_fwdSteps_of h1 (by omega) (fun j hj1 hj2 => ?_)
    by_contra hne
    have ht : fwdBad b b.get_occupied_cells v.occupies v j = true := by
      cases hx : fwdBad b b.get_occupied_cells v.occupies v j
      · exact absurd hx hne
      · rfl
    exact hleast j hj1 (by omega) (fwdBad_true_blocked hb hv hj1 ht)

theorem bwdSteps_mem_iff {b : Board} (hb : b.Valid) {v : Vehicle} (hv : v ∈ b.vehicles)
    (s : Nat) : s ∈ bwdSteps b v ↔ 1 ≤ s ∧ s < firstBlockBwd b v := by
  rcases firstBlockBwd_spec hb hv with ⟨hblk, hK1, hKN, hleast⟩
  constructor
  · intro h
    rcases mem_bwdSteps h with ⟨h1, h2, h3⟩
    refine ⟨h1, ?_⟩
    by_contra hge
    push_neg at hge
    rcases slideBlocked_bwd_imp hb hv hK1 hblk with ⟨j, hj1, hj2, hjt⟩
    rw [h3 j hj1 (by omega)] at hjt
    cases hjt
  · rintro ⟨h1, h2⟩
    refine mem_bwdSteps_of h1 (by omega) (fun j hj1 hj2 => ?_)
    by_contra hne
    have ht : bwdBad b b.get_occupied_cells v.occupies v j = true := by
      cases hx : bwdBad b b.get_occupied_cells v.occupies v j
      · exact absurd hx hne
      · rfl
    exact hleast j hj1 (by omega) (bwdBad_true_blocked hb hv hj1 ht)

theorem moves_pos_mem_iff {b : Board} (hb : b.Valid) {v : Vehicle} (hv : v ∈ b.vehicles)
    (s : Nat) :
    (v.id, (s : Int)) ∈ b.get_possible_moves ↔ 1 ≤ s ∧ s < firstBlockFwd b v := by
  constructor
  · intro h
    rcases (mem_moves_iff b _).mp h with ⟨w, hw, ⟨k, hk, he⟩ | ⟨k, hk, he⟩⟩
    · rcases Prod.mk.injEq .. ▸ he with ⟨hid, hst⟩
      have hkv : k = s := by exact_mod_cast hst
      have hwv : w = v := valid_id_inj hb hv hw hid
      exact (fwdSteps_mem_iff hb hv s).mp (hkv ▸ hwv ▸ hk)
    · rcases Prod.mk.injEq .. ▸ he with ⟨hid, hst⟩
      have hk1 := (mem_bwdSteps hk).1
      exfalso
      omega
  · rintro ⟨h1, h2⟩
    exact (mem_moves_iff b _).mpr
      ⟨v, hv, Or.inl ⟨s, (fwdSteps_mem_iff hb hv s).mpr ⟨h1, h2⟩, rfl⟩⟩

theorem moves_neg_mem_iff {b : Board} (hb : b.Valid) {v : Vehicle} (hv : v ∈ b.vehicles)
    (s : Nat) :
    (v.id, -(s : Int)) ∈ b.get_possible_moves ↔ 1 ≤ s ∧ s < firstBlockBwd b v := by
  constructor
  · intro h
    rcases (mem_moves_iff b _).mp h with ⟨w, hw, ⟨k, hk, he⟩ | ⟨k, hk, he⟩⟩
    · rcases Prod.mk.injEq .. ▸ he with ⟨hid, hst⟩
      have hk1 := (mem_fwdSteps hk).1
      exfalso
      omega
    · rcases Prod.mk.injEq .. ▸ he with ⟨hid, hst⟩
      have hkv : k = s := by omega
      have hwv : w = v := valid_id_inj hb hv hw hid
      exact (bwdSteps_mem_iff hb hv s).mp (hkv ▸ hwv ▸ hk)
  · rintro ⟨h1, h2⟩
    exact (mem_moves_iff b _).mpr
      ⟨v, hv, Or.inr ⟨s, (bwdSteps_mem_iff hb hv s).mpr ⟨h1, h2⟩, rfl⟩⟩

/-- C3: on a valid board, for every vehicle the emitted forward moves
are exactly `(id, s)` for `1 ≤ s` strictly below the first forward step
count whose slide would leave the grid or land on a different vehicle's
cell (own cells never block), symmetrically `(id, -s)` backward, and no
other moves are emitted. -/
theorem get_possible_moves_exactly_up_to_first_block (b : Board) (hb : b.Valid) :
    (∀ v ∈ b.vehicles,
      (slideBlocked b v ((firstBlockFwd b v : Nat) : Int) ∧
        ∀ j : Nat, 1 ≤ j → j < firstBlockFwd b v → ¬ slideBlocked b v (j : Int)) ∧
      (∀ s : Nat, ((v.id, (s : Int)) ∈ b.get_possible_moves ↔ 1 ≤ s ∧ s < firstBlockFwd b v)) ∧
      (slideBlocked b v (-((firstBlockBwd b v : Nat) : Int)) ∧
        ∀ j : Nat, 1 ≤ j → j < firstBlockBwd b v → ¬ slideBlocked b v (-(j : Int))) ∧
      (∀ s : Nat, ((v.id, -(s : Int)) ∈ b.get_possible_moves ↔ 1 ≤ s ∧ s < firstBlockBwd b v))) ∧
    ∀ m ∈ b.get_possible_moves, ∃ v ∈ b.vehicles, ∃ s : Nat, 1 ≤ s ∧
      (m = (v.id, (s : Int)) ∨ m = (v.id, -(s : Int))) := by
  constructor
  · intro v hv
    rcases firstBlockFwd_spec hb hv with ⟨f1, _, _, f4⟩
    rcases firstBlockBwd_spec hb hv with ⟨g1, _, _, g4⟩
    exact ⟨⟨f1, f4⟩, moves_pos_mem_iff hb hv, ⟨g1, g4⟩, moves_neg_mem_iff hb hv⟩
  · intro m hm
    rcases (mem_moves_iff b m).mp hm with ⟨v, hv, ⟨k, hk, he⟩ | ⟨k, hk, he⟩⟩
    · exact ⟨v, hv, k, (mem_fwdSteps hk).1, Or.inl he.symm⟩
    · exact ⟨v, hv, k, (mem_bwdSteps hk).1, Or.inr he.symm⟩

/-- Witness for C3 at a concrete input: on the scenario-A board the
slide `("target", 3)` is emitted while `("target", 5)` is not. -/
theorem get_possible_moves_exactly_up_to_first_block_witness :
    ("target", (3 : Int)) ∈ scenarioABoard.get_possible_moves ∧
      ("target", (5 : Int)) ∉ scenarioABoard.get_possible_moves := by
  have h := (get_possible_moves_exactly_up_to_first_block scenarioABoard (by decide)).1
    ⟨"target", "horizontal", 2, 2, 0⟩ (by decide)
  constructor
  · exact (h.2.1 3).mpr (by decide)
  · intro hc
    have := (h.2.1 5).mp hc
    revert this
    decide

/-! ## Cells of a legally moved vehicle -/

theorem legal_move_cells {b : Board} (hb : b.Valid) {v : Vehicle} (hv : v ∈ b.vehicles)
    {s : Int} (hm : (v.id, s) ∈ b.get_possible_moves) :
    ∀ p ∈ (v.moved s).occupies,
      inBoundsCell b.size p ∧ (p ∈ v.occupies ∨ p ∉ b.get_occupied_cells) := by
  have hl : 1 ≤ v.length := hb.2.2.2 v hv
  rcases (mem_moves_iff b _).mp hm with ⟨w, hw, ⟨k, hk, he⟩ | ⟨k, hk, he⟩⟩
  · rcases Prod.mk.injEq .. ▸ he with ⟨hid, hst⟩
    have hwv : w = v := valid_id_inj hb hv hw hid
    rw [hwv] at hk
    rcases mem_fwdSteps hk with ⟨hk1, _, h3⟩
    intro p hp
    rw [← hst] at hp
    rcases mem_moved_occupies.mp hp with ⟨t, ht0, htl, rfl⟩
    by_cases hown : (k : Int) + t < (v.length : Int)
    · exact ⟨valid_cell_inb hb hv (by omega) (by omega),
        Or.inl (mem_occupies_iff.mpr ⟨(k : Int) + t, by omega, by omega, rfl⟩)⟩
    · push_neg at hown
      set j : Nat := ((k : Int) + t - (v.length : Int) + 1).toNat with hjdef
      have hj1 : (j : Int) = (k : Int) + t - (v.length : Int) + 1 := by
        rw [hjdef]; rw [Int.toNat_of_nonneg (by omega)]
      have hfc : cellAt v ((v.length : Int) - 1 + (j : Int)) = cellAt v ((k : Int) + t) := by
        congr 1; omega
      have hgood := fwd_front_good hb hv (j := j) (by omega) (h3 j (by omega) (by omega))
      rw [hfc] at hgood
      exact ⟨hgood.1, Or.inr hgood.2⟩
  · rcases Prod.mk.injEq .. ▸ he with ⟨hid, hst⟩
    have hwv : w = v := valid_id_inj hb hv hw hid
    rw [hwv] at hk
    rcases mem_bwdSteps hk with ⟨hk1, _, h3⟩
    intro p hp
    rw [← hst] at hp
    rcases mem_moved_occupies.mp hp with ⟨t, ht0, htl, rfl⟩
    by_cases hown : (k : Int) ≤ t
    · have hrw : -(k : Int) + t = t - (k : Int) := by ring
      rw [hrw]
      exact ⟨valid_cell_inb hb hv (by omega) (by omega),
        Or.inl (mem_occupies_iff.mpr ⟨t - (k : Int), by omega, by omega, rfl⟩)⟩
    · push_neg at hown
      set j : Nat := ((k : Int) - t).toNat with hjdef
      have hj1 : (j : Int) = (k : Int) - t := by
        rw [hjdef]; rw [Int.toNat_of_nonneg (by omega)]
      have hfc : cellAt v (-(j : Int)) = cellAt v (-(k : Int) + t) := by
        congr 1; omega
      have hgood := bwd_back_good hb hv (j := j) (by omega) (h3 j (by omega) (by omega))
      rw [hfc] at hgood
      exact ⟨hgood.1, Or.inr hgood.2⟩

/-- A legal move names a vehicle of the board. -/
theorem legal_move_names_vehicle {b : Board} (hb : b.Valid) {i : String} {s : Int}
    (hm : (i, s) ∈ b.get_possible_moves) : ∃ v ∈ b.vehicles, v.id = i := by
  rcases (mem_moves_iff b _).mp hm with ⟨w, hw, ⟨k, _, he⟩ | ⟨k, _, he⟩⟩
  · exact ⟨w, hw, (Prod.mk.injEq .. ▸ he).1⟩
  · exact ⟨w, hw, (Prod.mk.injEq .. ▸ he).1⟩

/-- For a move returned by `get_possible_moves`, every `add_vehicle`
call inside `move` succeeds and appends, so the result is the input
vehicle list with only the id-matching vehicle advanced. -/
theorem move_legal_eq_map (b : Board) (hb : b.Valid) (i : String) (s : Int)
    (hm : (i, s) ∈ b.get_possible_moves) :
    (b.move i s).vehicles = b.vehicles.map (fun w => if w.id = i then w.moved s else w) := by
  obtain ⟨v, hv, hvi⟩ := legal_move_names_vehicle hb hm
  subst hvi
  have hcells := legal_move_cells hb hv hm
  have main : ∀ todo done, b.vehicles = done ++ todo →
      todo.foldl (moveStep v.id s)
          { size := b.size,
            vehicles := done.map (fun w => if w.id = v.id then w.moved s else w) } =
        { size := b.size,
          vehicles := b.vehicles.map (fun w => if w.id = v.id then w.moved s else w) } := by
    intro todo
    induction todo with
    | nil =>
      intro done happ
      rw [happ]
      simp
    | cons w t ih =>
      intro done happ
      have hwmem : w ∈ b.vehicles := by
        rw [happ]; exact List.mem_append.mpr (Or.inr (List.mem_cons_self _ _))
      have hdonemem : ∀ u ∈ done, u ∈ b.vehicles := by
        intro u hu; rw [happ]; exact List.mem_append.mpr (Or.inl hu)
      have hnd := hb.2.2.1
      have hwid_done : ∀ u ∈ done, u.id ≠ w.id := by
        intro u hu heq
        rw [happ, List.map_append] at hnd
        rcases List.nodup_append.mp hnd with ⟨_, _, hdisj⟩
        exact hdisj (List.mem_map_of_mem _ hu) (by rw [heq]; exact List.mem_cons_self _ _)
      have hfid : ∀ u : Vehicle, ((if u.id = v.id then u.moved s else u)).id = u.id := by
        intro u
        by_cases hc : u.id = v.id
        · rw [if_pos hc, moved_id, hc]
        · rw [if_neg hc]
      have hfw_cells : ∀ p ∈ (if w.id = v.id then w.moved s else w).occupies,
          inBoundsCell b.size p ∧
            ∀ u ∈ b.vehicles, u.id ≠ w.id → p ∉ u.occupies := by
        by_cases hwv : w.id = v.id
        · have hwev : w = v := valid_id_inj hb hv hwmem hwv
          rw [if_pos hwv, hwev]
          intro p hp
          rcases hcells p hp with ⟨hinb, hown | hnocc⟩
          · exact ⟨hinb, fun u hu hne => valid_disjoint_of_ne_id hb hv hu hne p hown⟩
          · exact ⟨hinb, fun u hu _ hpu => hnocc ((mem_occupied_iff b p).mpr ⟨u, hu, hpu⟩)⟩
        · rw [if_neg hwv]
          intro p hp
          refine ⟨hb.2.1 w hwmem p hp, fun u hu hne hpu => ?_⟩
          exact valid_disjoint_of_ne_id hb hwmem hu hne p hp hpu
      have hstep : moveStep v.id s
          { size := b.size,
            vehicles := done.map (fun w => if w.id = v.id then w.moved s else w) } w =
          { size := b.size,
            vehicles := (done ++ [w]).map (fun w => if w.id = v.id then w.moved s else w) } := by
        unfold moveStep Board.add_vehicle
        have hov : overlapsAny (if w.id = v.id then w.moved s else w).occupies
            (done.map (fun w => if w.id = v.id then w.moved s else w)) = false := by
          rw [← Bool.not_eq_true, overlapsAny_iff]
          rintro ⟨p, hp, fu, hfu, hpu⟩
          rcases List.mem_map.mp hfu with ⟨u, hu, rfl⟩
          rcases hfw_cells p hp with ⟨_, hnot⟩
          by_cases huv : u.id = v.id
          · have huev : u = v := valid_id_inj hb hv (hdonemem u hu) huv
            rw [if_pos huv] at hpu
            have hwv : w.id ≠ v.id := by
              intro hc
              exact hwid_done u hu (by rw [huv, hc])
            rw [if_neg hwv] at hp
            rcases hcells p (huev ▸ hpu) with ⟨_, hown | hnocc⟩
            · exact valid_disjoint_of_ne_id hb hv hwmem
                (fun hc => hwv hc) p (huev ▸ hown) hp
            · exact hnocc ((mem_occupied_iff b p).mpr ⟨w, hwmem, hp⟩)
          · rw [if_neg huv] at hpu
            exact hnot u (hdonemem u hu) (hwid_done u hu) hpu
        have hob : cellsOutOfBounds b.size
            (if w.id = v.id then w.moved s else w).occupies = false := by
          rw [← Bool.not_eq_true, cellsOutOfBounds_iff]
          rintro ⟨p, hp, hnb⟩
          exact hnb (hfw_cells p hp).1
        rw [hov]
        simp only [Bool.false_eq_true, if_false]
        rw [hob]
        simp only [Bool.false_eq_true, if_false]
        have hins : dictInsert (done.map (fun w => if w.id = v.id then w.moved s else w))
            (if w.id = v.id then w.moved s else w) =
            (done ++ [w]).map (fun w => if w.id = v.id then w.moved s else w) := by
          unfold dictInsert
          rw [if_neg, List.map_append]
          · rfl
          · rw [List.any_eq_true]
            rintro ⟨fu, hfu, heq⟩
            rcases List.mem_map.mp hfu with ⟨u, hu, rfl⟩
            have hids := of_decide_eq_true heq
            rw [hfid u, hfid w] at hids
            exact hwid_done u hu hids
        rw [hins]
      rw [List.foldl_cons, hstep, ih (done ++ [w]) (by rw [happ, List.append_assoc]; rfl)]
  have := main b.vehicles [] (by simp)
  rw [move_eq_foldl]
  simp only [List.map_nil] at this
  rw [this]

/-- C5: under the precondition that `(i, steps)` was returned by
`get_possible_moves` of the current board, `move i steps` returns a
board whose vehicle list is the input list with every vehicle of a
different id kept identical and the vehicle named `i` advanced by
`steps` along its own axis (`col + steps` if horizontal, `row + steps`
if vertical). -/
theorem move_advances_named_vehicle_only (b : Board) (hb : b.Valid) (i : String) (s : Int)
    (hm : (i, s) ∈ b.get_possible_moves) :
    (b.move i s).vehicles = b.vehicles.map (fun w => if w.id = i then w.moved s else w) :=
  move_legal_eq_map b hb i s hm

/-- Witness for C5 at a concrete input. -/
theorem move_advances_named_vehicle_only_witness :
    (scenarioABoard.move ("target") 1).vehicles =
      scenarioABoard.vehicles.map (fun w => if w.id = "target" then w.moved 1 else w) :=
  move_advances_named_vehicle_only scenarioABoard (by decide) ("target") 1 (by decide)

/-! ## Characterizing one expansion step of the BFS -/

theorem expandMoves_some_char (cur : Board) (D : Nat) (p : List Move) :
    ∀ (ms : List Move) (q : List QEntry) (v : List SHash) ans q₂ v₂,
      expandMoves cur D p ms q v = (some ans, q₂, v₂) →
      ∃ mv ∈ ms, ans = (true, D + 1, p ++ [mv]) ∧ (cur.move mv.1 mv.2).is_solved = true := by
  intro ms
  induction ms with
  | nil => intro q v ans q₂ v₂ h; cases h
  | cons mv rest ih =>
    intro q v ans q₂ v₂ h
    obtain ⟨vid, steps⟩ := mv
    unfold expandMoves at h
    split at h
    · rcases ih _ _ _ _ _ h with ⟨mv', hmv', ha, hs⟩
      exact ⟨mv', List.mem_cons_of_mem _ hmv', ha, hs⟩
    · split at h
      · next hsol =>
        rcases Prod.mk.injEq .. ▸ h with ⟨h1, _⟩
        exact ⟨(vid, steps), List.mem_cons_self _ _, (Option.some_inj.mp h1).symm, hsol⟩
      · rcases ih _ _ _ _ _ h with ⟨mv', hmv', ha, hs⟩
        exact ⟨mv', List.mem_cons_of_mem _ hmv', ha, hs⟩

theorem expandMoves_none_char (cur : Board) (D : Nat) (p : List Move) :
    ∀ (ms : List Move) (q : List QEntry) (v : List SHash) q₂ v₂,
      expandMoves cur D p ms q v = (none, q₂, v₂) →
      (∃ news newhs, q₂ = q ++ news ∧ v₂ = v ++ newhs ∧
        (∀ e ∈ news, ∃ mv ∈ ms, e = (cur.move mv.1 mv.2, D + 1, p ++ [mv]) ∧
          (cur.move mv.1 mv.2).is_solved = false ∧
          (cur.move mv.1 mv.2).get_state_hash ∉ v) ∧
        (∀ h ∈ newhs, ∃ e ∈ news, e.1.get_state_hash = h)) ∧
      (∀ mv ∈ ms, (cur.move mv.1 mv.2).get_state_hash ∈ v₂) := by
  intro ms
  induction ms with
  | nil =>
    intro q v q₂ v₂ h
    unfold expandMoves at h
    rcases Prod.mk.injEq .. ▸ h with ⟨_, h2⟩
    rcases Prod.mk.injEq .. ▸ h2 with ⟨hq, hv⟩
    subst hq; subst hv
    refine ⟨⟨[], [], by simp, by simp, by simp, by simp⟩, by simp⟩
  | cons mv rest ih =>
    intro q v q₂ v₂ h
    obtain ⟨vid, steps⟩ := mv
    unfold expandMoves at h
    split at h
    · next hmem =>
      rcases ih _ _ _ _ h with ⟨⟨news, newhs, hq, hv, hnews, hnewhs⟩, hclose⟩
      refine ⟨⟨news, newhs, hq, hv, ?_, hnewhs⟩, ?_⟩
      · intro e he
        rcases hnews e he with ⟨mv', hmv', he1, he2, he3⟩
        exact ⟨mv', List.mem_cons_of_mem _ hmv', he1, he2, he3⟩
      · intro mv' hmv'
        rcases List.mem_cons.mp hmv' with rfl | hmv'
        · rw [hv]; exact List.mem_append.mpr (Or.inl hmem)
        · exact hclose mv' hmv'
    · split at h
      · cases h
      · next hmem hsol =>
        rcases ih _ _ _ _ h with ⟨⟨news, newhs, hq, hv, hnews, hnewhs⟩, hclose⟩
        rw [List.append_assoc] at hq hv
        refine ⟨⟨(cur.move vid steps, D + 1, p ++ [(vid, steps)]) :: news,
          ((cur.move vid steps).get_state_hash) :: newhs, by simpa using hq,
          by simpa using hv, ?_, ?_⟩, ?_⟩
        · intro e he
          rcases List.mem_cons.mp he with rfl | he
          · exact ⟨(vid, steps), List.mem_cons_self _ _, rfl,
              Bool.not_eq_true _ ▸ hsol, hmem⟩
          · rcases hnews e he with ⟨mv', hmv', he1, he2, he3⟩
            exact ⟨mv', List.mem_cons_of_mem _ hmv', he1, he2,
              fun hc => he3 (List.mem_append.mpr (Or.inl hc))⟩
        · intro hh hhm
          rcases List.mem_cons.mp hhm with rfl | hhm
          · exact ⟨_, List.mem_cons_self _ _, rfl⟩
          · rcases hnewhs hh hhm with ⟨e, he, hhe⟩
            exact ⟨e, List.mem_cons_of_mem _ he, hhe⟩
        · intro mv' hmv'
          rcases List.mem_cons.mp hmv' with rfl | hmv'
          · rw [hv]
            exact List.mem_append.mpr (Or.inr (List.mem_append.mpr (Or.inl
              (List.mem_singleton.mpr rfl))))
          · exact hclose mv' hmv'

/-! ## BFS loop facts -/

theorem bfsLoop_all_deep : ∀ (fuel : Nat) (Q : List QEntry) (V : List SHash),
    (∀ e ∈ Q, MAX_DEPTH ≤ e.2.1) → bfsLoop fuel Q V = (false, 0, []) := by
  intro fuel
  induction fuel with
  | zero => intro Q V _; cases Q <;> rfl
  | succ n ih =>
    intro Q V hQ
    cases Q with
    | nil => rfl
    | cons e rest =>
      obtain ⟨cur, movesN, path⟩ := e
      unfold bfsLoop
      rw [if_pos (hQ _ (List.mem_cons_self _ _))]
      exact ih rest V (fun e he => hQ e (List.mem_cons_of_mem _ he))

theorem replayMoves_append_single (b : Board) (p : List Move) (mv : Move) :
    replayMoves b (p ++ [mv]) = (replayMoves b p).move mv.1 mv.2 := by
  unfold replayMoves
  rw [List.foldl_append]
  rfl

theorem bfsLoop_replay (b : Board) : ∀ (fuel : Nat) (Q : List QEntry) (V : List SHash),
    (∀ e ∈ Q, replayMoves b e.2.2 = e.1 ∧ e.2.2.length = e.2.1) →
    ∀ (k : Nat) (path : List Move), bfsLoop fuel Q V = (true, k, path) →
    path.length = k ∧ (replayMoves b path).is_solved = true := by
  intro fuel
  induction fuel with
  | zero => intro Q V _ k path h; cases Q <;> cases h
  | succ n ih =>
    intro Q V hInv k path h
    cases Q with
    | nil => cases h
    | cons e rest =>
      obtain ⟨cur, movesN, path0⟩ := e
      unfold bfsLoop at h
      split at h
      · exact ih rest V (fun e he => hInv e (List.mem_cons_of_mem _ he)) k path h
      · split at h
        · next ans q2 vis2 hexp =>
          rcases expandMoves_some_char cur movesN path0 _ _ _ _ _ _ hexp with
            ⟨mv, _, rfl, hsol⟩
          rcases Prod.mk.injEq .. ▸ h with ⟨_, h2⟩
          rcases Prod.mk.injEq .. ▸ h2 with ⟨hk, hpath⟩
          rcases hInv _ (List.mem_cons_self _ _) with ⟨hrep, hlen⟩
          subst hk; subst hpath
          constructor
          · simp [hlen]
          · rw [replayMoves_append_single, hrep]
            exact hsol
        · next q2 vis2 hexp =>
          rcases expandMoves_none_char cur movesN path0 _ _ _ _ _ hexp with
            ⟨⟨news, newhs, hq, _, hnews, _⟩, _⟩
          refine ih q2 vis2 ?_ k path h
          intro e he
          rw [hq] at he
          rcases List.mem_append.mp he with he | he
          · exact hInv e (List.mem_cons_of_mem _ he)
          · rcases hnews e he with ⟨mv, _, rfl, _, _⟩
            rcases hInv _ (List.mem_cons_self _ _) with ⟨hrep, hlen⟩
            constructor
            · rw [replayMoves_append_single, hrep]
            · simp [hlen]

/-- C2: whenever `solve_board` reports `(true, k, path)`, the path has
length exactly `k` and replaying it in order from the input board via
`Board.move` ends in a board satisfying `is_solved`. -/
theorem solve_path_replays_to_solved (b : Board) (hb : b.Valid) (fuel k : Nat)
    (path : List Move) (h : solve_board fuel b = (true, k, path)) :
    path.length = k ∧ (replayMoves b path).is_solved = true := by
  unfold solve_board at h
  by_cases hs : b.is_solved = true
  · rw [if_pos hs] at h
    rcases Prod.mk.injEq .. ▸ h with ⟨_, h2⟩
    rcases Prod.mk.injEq .. ▸ h2 with ⟨hk, hpath⟩
    subst hk; subst hpath
    exact ⟨rfl, hs⟩
  · rw [if_neg hs] at h
    exact bfsLoop_replay b fuel _ _ (by simp [replayMoves]) k path h

/-- Witness for C2 at a concrete input. -/
theorem solve_path_replays_to_solved_witness :
    [(("target" : String), (4 : Int))].length = 1 ∧
      (replayMoves scenarioABoard [("target", 4)]).is_solved = true :=
  solve_path_replays_to_solved scenarioABoard (by decide) 1 1 [("target", 4)] (by rfl)

/-! ## Boards without a target vehicle -/

theorem no_target_iff (b : Board) :
    b.findVehicle ("target") = none ↔ ∀ v ∈ b.vehicles, v.id ≠ "target" := by
  unfold Board.findVehicle
  rw [List.find?_eq_none]
  simp

theorem no_target_not_solved {b : Board} (h : b.findVehicle ("target") = none) :
    b.is_solved = false := by
  unfold Board.is_solved
  rw [h]

theorem move_keeps_no_target {b : Board} (i : String) (s : Int)
    (h : b.findVehicle ("target") = none) :
    (b.move i s).findVehicle ("target") = none := by
  rw [no_target_iff] at h ⊢
  intro v' hv'
  rcases move_vehicles_are_images b i s v' hv' with ⟨w, hw, rfl⟩
  by_cases hc : w.id = i
  · rw [if_pos hc, moved_id]
    exact h w hw
  · rw [if_neg hc]
    exact h w hw

theorem bfsLoop_no_target : ∀ (fuel : Nat) (Q : List QEntry) (V : List SHash),
    (∀ e ∈ Q, e.1.findVehicle ("target") = none) → bfsLoop fuel Q V = (false, 0, []) := by
  intro fuel
  induction fuel with
  | zero => intro Q V _; cases Q <;> rfl
  | succ n ih =>
    intro Q V hQ
    cases Q with
    | nil => rfl
    | cons e rest =>
      obtain ⟨cur, movesN, path⟩ := e
      unfold bfsLoop
      split
      · exact ih rest V (fun e he => hQ e (List.mem_cons_of_mem _ he))
      · split
        · next ans q2 vis2 hexp =>
          exfalso
          rcases expandMoves_some_char cur movesN path _ _ _ _ _ _ hexp with
            ⟨mv, _, _, hsol⟩
          rw [no_target_not_solved (move_keeps_no_target mv.1 mv.2
            (hQ _ (List.mem_cons_self _ _)))] at hsol
          cases hsol
        · next q2 vis2 hexp =>
          rcases expandMoves_none_char cur movesN path _ _ _ _ _ hexp with
            ⟨⟨news, newhs, hq, _, hnews, _⟩, _⟩
          refine ih q2 vis2 ?_
          intro e he
          rw [hq] at he
          rcases List.mem_append.mp he with he | he
          · exact hQ e (List.mem_cons_of_mem _ he)
          · rcases hnews e he with ⟨mv, _, rfl, _, _⟩
            exact move_keeps_no_target mv.1 mv.2 (hQ _ (List.mem_cons_self _ _))

/-- C9: on a board with no vehicle named `"target"` the solver reports
unsolvable: no reachable state is ever reported solved, since moves
never introduce the target id. -/
theorem solve_no_target_unsolvable (b : Board) (hb : b.Valid)
    (ht : b.findVehicle ("target") = none) (fuel : Nat) :
    solve_board fuel b = (false, 0, []) := by
  unfold solve_board
  rw [if_neg (by simp [no_target_not_solved ht])]
  exact bfsLoop_no_target fuel _ _ (by
    intro e he
    rcases List.mem_singleton.mp he with rfl
    exact ht)



/-- Witness for C9 at a concrete input. -/
theorem solve_no_target_unsolvable_witness :
    solve_board 5 noTargetBoard = (false, 0, []) :=
  solve_no_target_unsolvable noTargetBoard (by decide) (by rfl) 5

/-! ## The state hash is injective on boards of one search -/



theorem keyed_perm_eq {α β : Type} [DecidableEq α] [DecidableEq β] :
    ∀ (l₁ l₂ : List (α × β)), l₁.map Prod.fst = l₂.map Prod.fst →
      (l₁.map Prod.fst).Nodup → l₁.Perm l₂ → l₁ = l₂ := by
  intro l₁
  induction l₁ with
  | nil =>
    intro l₂ hk _ _
    cases l₂ with
    | nil => rfl
    | cons x t => cases hk
  | cons a t₁ ih =>
    intro l₂ hk hnd hperm
    cases l₂ with
    | nil => cases hk
    | cons c t₂ =>
      rcases List.cons.injEq .. ▸ hk with ⟨hk1, hk2⟩
      have hac : a = c := by
        have hmem : a ∈ c :: t₂ := hperm.mem_iff.mp (List.mem_cons_self _ _)
        rcases List.mem_cons.mp hmem with h | h
        · exact h
        · exfalso
          have : a.1 ∈ t₂.map Prod.fst := List.mem_map_of_mem _ h
          rw [← hk2] at this
          rw [List.map_cons] at hnd
          exact (List.nodup_cons.mp hnd).1 (hk1 ▸ this)
      subst hac
      have ht : t₁ = t₂ := by
        refine ih t₂ hk2 ?_ hperm.cons_inv
        rw [List.map_cons] at hnd
        exact (List.nodup_cons.mp hnd).2
      rw [ht]

theorem vehicles_eq_of_parts :
    ∀ (l₁ l₂ : List Vehicle),
      l₁.map (fun v => (v.id, v.orientation, v.length)) =
        l₂.map (fun v => (v.id, v.orientation, v.length)) →
      l₁.map (fun v => (v.id, v.row, v.col)) = l₂.map (fun v => (v.id, v.row, v.col)) →
      l₁ = l₂ := by
  intro l₁
  induction l₁ with
  | nil =>
    intro l₂ h1 _
    cases l₂ with
    | nil => rfl
    | cons x t => cases h1
  | cons a t₁ ih =>
    intro l₂ h1 h2
    cases l₂ with
    | nil => cases h1
    | cons c t₂ =>
      rcases List.cons.injEq .. ▸ h1 with ⟨hh1, ht1⟩
      rcases List.cons.injEq .. ▸ h2 with ⟨hh2, ht2⟩
      rcases Prod.mk.injEq .. ▸ hh1 with ⟨hid, hrest⟩
      rcases Prod.mk.injEq .. ▸ hrest with ⟨hor, hlen⟩
      rcases Prod.mk.injEq .. ▸ hh2 with ⟨_, hrest2⟩
      rcases Prod.mk.injEq .. ▸ hrest2 with ⟨hrow, hcol⟩
      have hac : a = c := by
        cases a; cases c
        simp only [Vehicle.mk.injEq]
        exact ⟨hid, hor, hlen, hrow, hcol⟩
      rw [hac, ih t₂ ht1 ht2]

theorem hash_inj {b c : Board} (hsk : skeleton b = skeleton c) (hsz : b.size = c.size)
    (hnd : (b.vehicles.map Vehicle.id).Nodup)
    (hh : b.get_state_hash = c.get_state_hash) : b = c := by
  have hids : b.vehicles.map Vehicle.id = c.vehicles.map Vehicle.id := by
    have h1 : (skeleton b).map Prod.fst = (skeleton c).map Prod.fst := by rw [hsk]
    unfold skeleton at h1
    rw [List.map_map, List.map_map] at h1
    exact h1
  have htr : (b.vehicles.map (fun v => (v.id, v.row, v.col))).Perm
      (c.vehicles.map (fun v => (v.id, v.row, v.col))) := by
    have hp1 := List.perm_insertionSort
      (fun x y : String × Int × Int => x.1 ≤ y.1)
      (b.vehicles.map (fun v => (v.id, v.row, v.col)))
    have hp2 := List.perm_insertionSort
      (fun x y : String × Int × Int => x.1 ≤ y.1)
      (c.vehicles.map (fun v => (v.id, v.row, v.col)))
    unfold Board.get_state_hash at hh
    exact (hp1.symm.trans (hh ▸ hp2)).symm.symm
  have hkeys : (b.vehicles.map (fun v => (v.id, v.row, v.col))).map Prod.fst =
      (c.vehicles.map (fun v => (v.id, v.row, v.col))).map Prod.fst := by
    rw [List.map_map, List.map_map]
    exact hids
  have hkeynd : ((b.vehicles.map (fun v => (v.id, v.row, v.col))).map Prod.fst).Nodup := by
    rw [List.map_map]
    exact hnd
  have heq := keyed_perm_eq _ _ hkeys hkeynd htr
  have hveh : b.vehicles = c.vehicles := by
    refine vehicles_eq_of_parts _ _ ?_ heq
    exact hsk
  cases b; cases c
  simp only [Board.mk.injEq]
  exact ⟨hsz, hveh⟩

/-! ## Reachability preserves the skeleton, size and validity -/

theorem move_legal_good {b : Board} (hb : b.Valid) {i : String} {s : Int}
    (hm : (i, s) ∈ b.get_possible_moves) :
    (b.move i s).Valid ∧ skeleton (b.move i s) = skeleton b ∧ (b.move i s).size = b.size := by
  have hmap := move_legal_eq_map b hb i s hm
  have hinv := move_keeps_invariants b i s
  have hsk : skeleton (b.move i s) = skeleton b := by
    unfold skeleton
    rw [hmap, List.map_map]
    refine List.map_congr_left fun w _ => ?_
    by_cases hc : w.id = i
    · simp [hc, moved_id, moved_orientation, moved_length]
    · simp [hc]
  refine ⟨⟨hinv.1, hinv.2.1, hinv.2.2.1, ?_⟩, hsk, hinv.2.2.2⟩
  intro w' hw'
  rw [hmap] at hw'
  rcases List.mem_map.mp hw' with ⟨w, hw, rfl⟩
  by_cases hc : w.id = i
  · rw [if_pos hc, moved_length]
    exact hb.2.2.2 w hw
  · rw [if_neg hc]
    exact hb.2.2.2 w hw

theorem reachN_zero {b c : Board} (h : ReachN b 0 c) : c = b := by
  cases h
  rfl

theorem reachN_succ_inv {b x : Board} {n : Nat} (h : ReachN b (n + 1) x) :
    ∃ y mv, ReachN b n y ∧ mv ∈ y.get_possible_moves ∧ x = y.move mv.1 mv.2 := by
  cases h with
  | step hr hmv => exact ⟨_, _, hr, hmv, rfl⟩

theorem reach_good {b : Board} (hb : b.Valid) :
    ∀ {n : Nat} {c : Board}, ReachN b n c →
      c.Valid ∧ skeleton c = skeleton b ∧ c.size = b.size := by
  intro n
  induction n with
  | zero =>
    intro c h
    rw [reachN_zero h]
    exact ⟨hb, rfl, rfl⟩
  | succ n ih =>
    intro c h
    rcases reachN_succ_inv h with ⟨y, mv, hy, hmv, rfl⟩
    rcases ih hy with ⟨hyv, hysk, hysz⟩
    rcases move_legal_good hyv (by exact hmv) with ⟨h1, h2, h3⟩
    exact ⟨h1, h2.trans hysk, h3.trans hysz⟩

theorem reach_hash_inj {b : Board} (hb : b.Valid) {m₁ m₂ : Nat} {x s : Board}
    (h1 : ReachN b m₁ x) (h2 : ReachN b m₂ s)
    (hh : x.get_state_hash = s.get_state_hash) : x = s := by
  rcases reach_good hb h1 with ⟨hxv, hxsk, hxsz⟩
  rcases reach_good hb h2 with ⟨_, hssk, hssz⟩
  exact hash_inj (hxsk.trans hssk.symm) (hxsz.trans hssz.symm) hxv.2.2.1 hh

/-! ## The BFS loop invariant for minimality -/

theorem sorted_of_const {l : List Nat} {c : Nat} (h : ∀ x ∈ l, x = c) :
    List.Sorted (· ≤ ·) l := by
  induction l with
  | nil => exact List.Pairwise.nil
  | cons a t ih =>
    rw [List.sorted_cons]
    exact ⟨fun y hy => by rw [h a (List.mem_cons_self _ _), h y (List.mem_cons_of_mem _ hy)],
      ih (fun x hx => h x (List.mem_cons_of_mem _ hx))⟩


theorem bfsInv_init (b : Board) (hs : b.is_solved = false) :
    BfsInv b [(b, 0, [])] [b.get_state_hash] 0 := by
  constructor
  · rintro e t he
    rcases List.cons.injEq .. ▸ he with ⟨rfl, _⟩
    rfl
  · intro e _; exact Nat.zero_le _
  · rintro e he
    rcases List.mem_singleton.mp he with rfl
    exact Nat.zero_le _
  · exact List.sorted_singleton _
  · rintro e he
    rcases List.mem_singleton.mp he with rfl
    exact ⟨ReachN.refl b, List.mem_singleton.mpr rfl, hs⟩
  · rintro h hh
    rcases List.mem_singleton.mp hh with rfl
    exact ⟨b, 0, ReachN.refl b, rfl, hs⟩
  · intro m x hm hx
    have hm0 : m = 0 := by omega
    rw [hm0] at hx
    rw [reachN_zero hx]
    exact List.mem_singleton.mpr rfl
  · intro m x hm
    exact absurd hm (by omega)
  · rintro h hh
    exact Or.inl ⟨(b, 0, []), List.mem_singleton.mpr rfl, (List.mem_singleton.mp hh).symm⟩
  · rintro e he m hr
    rcases List.mem_singleton.mp he with rfl
    exact Nat.zero_le _

theorem bfsInv_preserved {b : Board} (hb : b.Valid) {cur : Board} {D : Nat}
    {path0 : List Move} {rest : List QEntry} {V : List SHash}
    (inv : BfsInv b ((cur, D, path0) :: rest) V D)
    {q2 : List QEntry} {v2 : List SHash}
    (hexp : expandMoves cur D path0 cur.get_possible_moves rest V = (none, q2, v2))
    {d0' : Nat}
    (hcase : d0' = D ∨ (d0' = D + 1 ∧ ∀ e ∈ rest, e.2.1 = D + 1))
    (hhead : ∀ e t, q2 = e :: t → e.2.1 = d0') :
    BfsInv b q2 v2 d0' := by
  rcases expandMoves_none_char cur D path0 _ _ _ _ _ hexp with
    ⟨⟨news, newhs, hq2, hv2, hnews, hnewhs⟩, hclose⟩
  have hVsub : ∀ h ∈ V, h ∈ v2 := by
    intro h hh
    rw [hv2]
    exact List.mem_append.mpr (Or.inl hh)
  have hheadQ := inv.entries _ (List.mem_cons_self ((cur, D, path0)) rest)
  have hcurR : ReachN b D cur := hheadQ.1
  have hd0D : D ≤ d0' := by rcases hcase with rfl | ⟨rfl, _⟩ <;> omega
  have hd0up : d0' ≤ D + 1 := by rcases hcase with rfl | ⟨rfl, _⟩ <;> omega
  have hnewsdepth : ∀ e ∈ news, e.2.1 = D + 1 := by
    intro e he
    rcases hnews e he with ⟨mv, _, rfl, _, _⟩
    rfl
  have hnewsfacts : ∀ e ∈ news, ReachN b (D + 1) e.1 ∧ e.1.get_state_hash ∈ v2 ∧
      e.1.is_solved = false ∧ e.1.get_state_hash ∉ V := by
    intro e he
    rcases hnews e he with ⟨mv, hmv, rfl, hsol, hnin⟩
    exact ⟨ReachN.step hcurR hmv, hclose mv hmv, hsol, hnin⟩
  have hexpD : ∀ x, ReachN b D x → (∀ e ∈ rest, e.2.1 = D + 1) →
      ∀ mv ∈ x.get_possible_moves, (x.move mv.1 mv.2).get_state_hash ∈ v2 := by
    intro x hx hrest1 mv hmv
    have hxV : x.get_state_hash ∈ V := inv.covered D x (le_refl D) hx
    rcases inv.expanded _ hxV with ⟨e, heQ, hehash⟩ | ⟨z, mz, hzr, hzh, hzc⟩
    · have hex : e.1 = x := reach_hash_inj hb (inv.entries e heQ).1 hx hehash
      rcases List.mem_cons.mp heQ with rfl | heR
      · have hcx : cur = x := hex
        subst hcx
        exact hclose mv hmv
      · exfalso
        have hle : e.2.1 ≤ D := inv.entToDist e (List.mem_cons_of_mem _ heR) D (hex ▸ hx)
        rw [hrest1 e heR] at hle
        omega
    · have hzx : z = x := reach_hash_inj hb hzr hx hzh
      rw [hzx] at hzc
      exact hVsub _ (hzc mv hmv)
  have hsucc_cov : ∀ x, ReachN b D x → (∀ e ∈ rest, e.2.1 = D + 1) →
      ∀ mv ∈ x.get_possible_moves, (x.move mv.1 mv.2).get_state_hash ∈ v2 := hexpD
  constructor
  · exact hhead
  · intro e he
    rw [hq2] at he
    rcases List.mem_append.mp he with he | he
    · rcases hcase with rfl | ⟨rfl, hall⟩
      · exact inv.low e (List.mem_cons_of_mem _ he)
      · rw [hall e he]
    · rw [hnewsdepth e he]
      omega
  · intro e he
    rw [hq2] at he
    rcases List.mem_append.mp he with he | he
    · have := inv.bound e (List.mem_cons_of_mem _ he)
      omega
    · rw [hnewsdepth e he]
      omega
  · rw [hq2, List.map_append]
    show List.Pairwise _ _
    rw [List.pairwise_append]
    refine ⟨?_, ?_, ?_⟩
    · have hs := inv.sorted
      rw [List.map_cons, List.sorted_cons] at hs
      exact hs.2
    · refine sorted_of_const (c := D + 1) ?_
      intro x hx
      rcases List.mem_map.mp hx with ⟨e, he, rfl⟩
      exact hnewsdepth e he
    · intro a ha c hc
      rcases List.mem_map.mp ha with ⟨e, he, rfl⟩
      rcases List.mem_map.mp hc with ⟨e', he', rfl⟩
      rw [hnewsdepth e' he']
      have := inv.bound e (List.mem_cons_of_mem _ he)
      omega
  · intro e he
    rw [hq2] at he
    rcases List.mem_append.mp he with he | he
    · rcases inv.entries e (List.mem_cons_of_mem _ he) with ⟨h1, h2, h3⟩
      exact ⟨h1, hVsub _ h2, h3⟩
    · rcases hnewsfacts e he with ⟨h1, h2, h3, _⟩
      rw [hnewsdepth e he]
      exact ⟨h1, h2, h3⟩
  · intro h hh
    rw [hv2] at hh
    rcases List.mem_append.mp hh with hh | hh
    · exact inv.vsound h hh
    · rcases hnewhs h hh with ⟨e, he, hhe⟩
      rcases hnewsfacts e he with ⟨h1, _, h3, _⟩
      exact ⟨e.1, D + 1, h1, hhe, h3⟩
  · intro m x hm hx
    rcases Nat.lt_or_ge m (D + 1) with hmD | hmD
    · exact hVsub _ (inv.covered m x (by omega) hx)
    · rcases hcase with rfl | ⟨rfl, hall⟩
      · omega
      · have hmeq : m = D + 1 := by omega
        rw [hmeq] at hx
        rcases reachN_succ_inv hx with ⟨y, mv, hy, hmv, rfl⟩
        by_cases hshort : ∃ m', m' < D ∧ ReachN b m' y
        · rcases hshort with ⟨m', hm', hy'⟩
          exact hVsub _ (inv.closedLt m' y hm' hy' mv hmv)
        · exact hsucc_cov y hy hall mv hmv
  · intro m x hm hx mv hmv
    rcases Nat.lt_or_ge m D with hmD | hmD
    · exact hVsub _ (inv.closedLt m x hmD hx mv hmv)
    · rcases hcase with rfl | ⟨rfl, hall⟩
      · omega
      · have hmeq : m = D := by omega
        rw [hmeq] at hx
        by_cases hshort : ∃ m', m' < D ∧ ReachN b m' x
        · rcases hshort with ⟨m', hm', hx'⟩
          exact hVsub _ (inv.closedLt m' x hm' hx' mv hmv)
        · exact hsucc_cov x hx hall mv hmv
  · intro h hh
    rw [hv2] at hh
    rcases List.mem_append.mp hh with hh | hh
    · rcases inv.expanded h hh with ⟨e, heQ, hehash⟩ | ⟨z, mz, hzr, hzh, hzc⟩
      · rcases List.mem_cons.mp heQ with rfl | heR
        · refine Or.inr ⟨cur, D, hcurR, hehash, ?_⟩
          intro mv hmv
          exact hclose mv hmv
        · exact Or.inl ⟨e, by rw [hq2]; exact List.mem_append.mpr (Or.inl heR), hehash⟩
      · exact Or.inr ⟨z, mz, hzr, hzh, fun mv hmv => hVsub _ (hzc mv hmv)⟩
    · rcases hnewhs h hh with ⟨e, he, hhe⟩
      exact Or.inl ⟨e, by rw [hq2]; exact List.mem_append.mpr (Or.inr he), hhe⟩
  · intro e he m hr
    rw [hq2] at he
    rcases List.mem_append.mp he with he | he
    · exact inv.entToDist e (List.mem_cons_of_mem _ he) m hr
    · rw [hnewsdepth e he]
      by_contra hlt
      push_neg at hlt
      rcases hnewsfacts e he with ⟨_, _, _, hnin⟩
      exact hnin (inv.covered m e.1 (by omega) hr)

theorem bfsLoop_minimal (b : Board) (hb : b.Valid) :
    ∀ (fuel : Nat) (Q : List QEntry) (V : List SHash) (d0 : Nat), BfsInv b Q V d0 →
    ∀ (k : Nat) (path : List Move), bfsLoop fuel Q V = (true, k, path) →
    ∀ m, m < k → ∀ s, ReachN b m s → s.is_solved = false := by
  intro fuel
  induction fuel with
  | zero =>
    intro Q V d0 _ k path h
    cases Q with
    | nil => cases h
    | cons e t => cases h
  | succ n ih =>
    intro Q V d0 inv k path h m hm s hreach
    cases Q with
    | nil => cases h
    | cons e restQ =>
      obtain ⟨cur, D, path0⟩ := e
      have hDd0 : D = d0 := inv.headd (cur, D, path0) restQ rfl
      subst hDd0
      unfold bfsLoop at h
      split at h
      · next hdeep =>
        have hall : ∀ e ∈ restQ, MAX_DEPTH ≤ e.2.1 :=
          fun e he => le_trans hdeep (inv.low e (List.mem_cons_of_mem _ he))
        rw [bfsLoop_all_deep n restQ V hall] at h
        cases h
      · split at h
        · next ans q2 vis2 hexp =>
          rcases expandMoves_some_char cur D path0 _ _ _ _ _ _ hexp with
            ⟨mv, hmv, hans, hsol⟩
          rw [hans] at h
          rcases Prod.mk.injEq .. ▸ h with ⟨_, h2⟩
          rcases Prod.mk.injEq .. ▸ h2 with ⟨hk, _⟩
          have hmD : m ≤ D := by omega
          have hsV : s.get_state_hash ∈ V := inv.covered m s hmD hreach
          rcases inv.vsound _ hsV with ⟨x, mx, hxr, hxh, hxs⟩
          have hxe : x = s := reach_hash_inj hb hxr hreach hxh
          rw [← hxe]
          exact hxs
        · next q2 vis2 hexp =>
          rcases expandMoves_none_char cur D path0 _ _ _ _ _ hexp with
            ⟨⟨news, newhs, hq2, hv2, hnews, _⟩, _⟩
          have hnewsdepth : ∀ e ∈ news, e.2.1 = D + 1 := by
            intro e he
            rcases hnews e he with ⟨mv, _, rfl, _, _⟩
            rfl
          cases restQ with
          | nil =>
            cases hnq : news with
            | nil =>
              rw [hq2, hnq] at h
              simp only [List.nil_append] at h
              rw [show bfsLoop n [] vis2 = (false, 0, []) from by cases n <;> rfl] at h
              cases h
            | cons e2 t2 =>
              refine ih q2 vis2 (D + 1)
                (bfsInv_preserved hb inv hexp (Or.inr ⟨rfl, by intro e he; cases he⟩) ?_)
                k path h m hm s hreach
              intro e t het
              rw [hq2, hnq] at het
              simp only [List.nil_append] at het
              rcases List.cons.injEq .. ▸ het with ⟨he2, _⟩
              rw [← he2]
              exact hnewsdepth e2 (by rw [hnq]; exact List.mem_cons_self _ _)
          | cons r rs =>
            have hrlow : D ≤ r.2.1 := inv.low r (List.mem_cons_of_mem _ (List.mem_cons_self _ _))
            have hrup : r.2.1 ≤ D + 1 :=
              inv.bound r (List.mem_cons_of_mem _ (List.mem_cons_self _ _))
            by_cases hrD : r.2.1 = D
            · refine ih q2 vis2 D (bfsInv_preserved hb inv hexp (Or.inl rfl) ?_)
                k path h m hm s hreach
              intro e t het
              rw [hq2] at het
              have : e = r := by
                have : r :: (rs ++ news) = e :: t := by simpa using het
                exact ((List.cons.injEq .. ▸ this).1).symm
              rw [this]
              exact hrD
            · have hrD1 : r.2.1 = D + 1 := by omega
              have hall : ∀ e ∈ r :: rs, e.2.1 = D + 1 := by
                have hs0 := inv.sorted
                rw [List.map_cons, List.sorted_cons] at hs0
                have hs1 := hs0.2
                rw [List.map_cons, List.sorted_cons] at hs1
                intro e he
                rcases List.mem_cons.mp he with rfl | he
                · exact hrD1
                · have h1 : r.2.1 ≤ e.2.1 := hs1.1 _ (List.mem_map_of_mem _ he)
                  have h2 : e.2.1 ≤ D + 1 := inv.bound e
                    (List.mem_cons_of_mem _ (List.mem_cons_of_mem _ he))
                  omega
              refine ih q2 vis2 (D + 1)
                (bfsInv_preserved hb inv hexp (Or.inr ⟨rfl, hall⟩) ?_)
                k path h m hm s hreach
              intro e t het
              rw [hq2] at het
              have : e = r := by
                have : r :: (rs ++ news) = e :: t := by simpa using het
                exact ((List.cons.injEq .. ▸ this).1).symm
              rw [this]
              exact hrD1

/-- C1: whenever `solve_board` on a valid board reports
`(true, k, path)`, the count `k` is the true graph-distance minimum: no
sequence of fewer than `k` moves, each produced by `get_possible_moves`
of the state it is applied to, leads from the input board to a state
satisfying `is_solved`. -/
theorem solve_min_moves_is_graph_minimum (b : Board) (hb : b.Valid) (fuel k : Nat)
    (path : List Move) (h : solve_board fuel b = (true, k, path)) :
    ∀ m, m < k → ∀ c, ReachN b m c → c.is_solved = false := by
  unfold solve_board at h
  by_cases hs : b.is_solved = true
  · rw [if_pos hs] at h
    rcases Prod.mk.injEq .. ▸ h with ⟨_, h2⟩
    rcases Prod.mk.injEq .. ▸ h2 with ⟨hk, _⟩
    intro m hm
    exact absurd hm (by omega)
  · rw [if_neg hs] at h
    exact bfsLoop_minimal b hb fuel _ _ 0
      (bfsInv_init b (by simpa using hs)) k path h

/-- Witness for C1 at a concrete input: the scenario-A board needs one
move, so the root itself (the only state within distance 0) is
unsolved. -/
theorem solve_min_moves_is_graph_minimum_witness :
    scenarioABoard.is_solved = false :=
  solve_min_moves_is_graph_minimum scenarioABoard (by decide) 1 1 [("target", 4)]
    (by rfl) 0 (by decide) scenarioABoard (ReachN.refl scenarioABoard)

end Draivers
